import Mathlib

/-!
# Verification of the `reactives` propagation core

This file gives a shallow embedding, in Lean 4, of the propagation core of
the `reactives` Python library:

* `reactives/reactor.py` — the chain scheduler (`_ReactorChain`,
  `_ReactorChainTrigger`, `ReactorController`): graph expansion
  (`_resolve_edges` / `_resolve_reactor_controller_edges`), the
  `graphlib.TopologicalSorter`-based drain (`__next__`), and re-entrant
  trigger consolidation (`_ReactorChainTrigger.trigger`).
* `reactives/scope.py` — the dependency-collection scope (`collect`,
  `clear`, `register`) together with the caller pattern of
  `reactives/_callable.py` (`CallableDefinition._call`).
* `reactives/controller.py` — the legacy controller generation that carries
  the global suspension guard (`_trigger_suspended`, `suspend`,
  `trigger`).

Graph nodes are identified by natural numbers: Python compares the relevant
objects (controllers, bound `_on_trigger` methods, plain reactors) by
object identity (bound methods by their identity-like structural equality),
which the `Nat` ids model.  A controller's downstream list is modelled
through an environment `env : Nat → List RNode` giving, for each
controller id, the live (already de-referenced, weakref-resolved) reactor
nodes exactly as the `_reactors` property yields them.  Plain reactors may
perform re-entrant `ReactorController.trigger` / `_trigger` calls; this is
modelled by `Act`, mapping a reactor id to the list of (controller,
origin) trigger calls the reactor performs when invoked.

Recursion in `_resolve_edges` is a Python generator recursion with no
visited set; on cyclic subscription graphs it never terminates.  The
embedding makes this explicit with a fuel parameter: `none` for every fuel
value models the non-terminating computation.
-/

/-- The trigger origin (`TriggerOrigin` in `reactor.py`): `EXTERNAL` expands a
controller's on-trigger hook into the graph, `INTERNAL` skips it for the
controller the trigger originated from. -/
inductive Origin
  | external
  | internal
deriving DecidableEq

/-- A node of the reactor graph (`ReactorGraphNode`): a controller, a
controller's bound `_on_trigger` method, or a plain reactor callable. -/
inductive RNode
  | ctrl (c : Nat)
  | hook (c : Nat)
  | reactor (r : Nat)
deriving DecidableEq

/-- An edge as yielded by `_ReactorChain._resolve_edges`: an optional source
node (the root edge has source `None`) and a target node. -/
abbrev REdge := Option RNode × RNode

/-- The preliminary hook edge and the source node used for a controller's
reactors, per `_resolve_reactor_controller_edges`: an `INTERNAL` origin uses
the controller itself as source and yields no hook edge; `EXTERNAL` yields
the edge from the controller to its hook and uses the hook as source. -/
def hookSource (c : Nat) (o : Origin) : List REdge × RNode :=
  match o with
  | .internal => ([], RNode.ctrl c)
  | .external => ([(some (RNode.ctrl c), RNode.hook c)], RNode.hook c)

/-- Sequencing of the per-reactor sub-generators of
`_resolve_reactor_controller_edges`: each reactor's edges are produced in
order and concatenated; a diverging sub-generator (modelled by `none`)
makes the whole expansion diverge. -/
def resolveListF (f : RNode → Option (List REdge)) : List RNode → Option (List REdge)
  | [] => some []
  | n :: ns =>
    match f n, resolveListF f ns with
    | some es, some rest => some (es ++ rest)
    | _, _ => none

/-- `_ReactorChain._resolve_edges`: yield the edge `(src, tgt)`; when the
target is a controller, recursively expand its hook (unless the origin is
internal) and its downstream reactors, each reactor expanded with
`EXTERNAL` origin.  The Python generator recursion has no termination
check; the fuel parameter makes divergence observable as `none`. -/
def resolveEdges (env : Nat → List RNode) : Nat → Option RNode → RNode → Origin → Option (List REdge)
  | 0, _, _, _ => none
  | fuel+1, src, tgt, o =>
    match tgt with
    | RNode.ctrl c =>
      match resolveListF (fun n => resolveEdges env fuel (hookSource c o).2 n Origin.external) (env c) with
      | none => none
      | some rest => some ((src, tgt) :: ((hookSource c o).1 ++ rest))
    | _ => some [(src, tgt)]

/-- The chain's edge map `_target_reactor_graph`: an insertion-ordered
association list from target node to the ordered list of its source nodes
(`defaultdict(list)` with appends). -/
abbrev Graph := List (RNode × List RNode)

/-- Append source `s` to target `t`'s source list, creating the key at the
end on first use (`self._target_reactor_graph[target].append(source)`). -/
def graphAdd (g : Graph) (s t : RNode) : Graph :=
  match g with
  | [] => [(t, [s])]
  | e :: rest => if e.1 = t then (e.1, e.2 ++ [s]) :: rest else e :: graphAdd rest s t

/-- `_ReactorChain.update`'s graph-population loop: every resolved edge
with a non-`None` source is appended to the edge map. -/
def graphMerge (g : Graph) (es : List REdge) : Graph :=
  es.foldl (fun a e => match e.1 with | none => a | some s => graphAdd a s e.2) g

/-- Remove the first occurrence of `n` (`list.remove` with
`suppress(ValueError)`). -/
def removeFirst : List RNode → RNode → List RNode
  | [], _ => []
  | x :: xs, n => if x = n then xs else x :: removeFirst xs n

/-- Node removal in `_ReactorChain.__next__`: delete the node's key from the
edge map and remove its first occurrence from every remaining source list. -/
def graphDrop (g : Graph) (n : RNode) : Graph :=
  (g.filter (fun e => !(e.1 == n))).map (fun e => (e.1, removeFirst e.2 n))

/-- The state built by `graphlib.TopologicalSorter.__init__`/`add`: node
discovery order (`_node2info` insertion order), predecessor counts and
successor lists. -/
structure TS where
  order : List RNode
  npred : RNode → Int
  succ : RNode → List RNode

/-- `TopologicalSorter._get_nodeinfo`: register a node on first sight. -/
def tsSeen (ts : TS) (n : RNode) : TS :=
  if n ∈ ts.order then ts else { ts with order := ts.order ++ [n] }

/-- `TopologicalSorter.add(target, *sources)` for one edge-map entry: the
target's predecessor count grows by the number of sources, and the target
is appended to each source's successor list, in source order. -/
def tsAddEntry (ts : TS) (t : RNode) (srcs : List RNode) : TS :=
  let ts1 := tsSeen ts t
  let ts2 : TS :=
    { ts1 with npred := fun x => if x = t then ts1.npred x + srcs.length else ts1.npred x }
  srcs.foldl (fun a s =>
    let a1 := tsSeen a s
    { a1 with succ := fun x => if x = s then a1.succ x ++ [t] else a1.succ x }) ts2

/-- Build the sorter state from the edge map, entry by entry in insertion
order (`TopologicalSorter(graph)`). -/
def buildTS (g : Graph) : TS :=
  g.foldl (fun ts e => tsAddEntry ts e.1 e.2) ⟨[], fun _ => 0, fun _ => []⟩

/-- One decrement step of `TopologicalSorter.done`: decrement the
successor's predecessor count and append it to the ready list exactly when
the count reaches zero. -/
def decStep (p : (RNode → Int) × List RNode) (t : RNode) : (RNode → Int) × List RNode :=
  let v := p.1 t - 1
  let np : RNode → Int := fun x => if x = t then v else p.1 x
  if v = 0 then (np, p.2 ++ [t]) else (np, p.2)

/-- `TopologicalSorter.get_ready` marks every node it hands out
(`_NODE_OUT = -2`). -/
def markOut (np : RNode → Int) (batch : List RNode) : RNode → Int :=
  batch.foldl (fun f n => fun x => if x = n then -2 else f x) np

/-- The batch loop of `TopologicalSorter.static_order`: emit the ready
batch, mark it out, run `done` on each emitted node in order (which
decrements each successor occurrence in order and collects the next ready
batch), and repeat.  The fuel bounds the number of batches; `static_order`
performs at most one batch per remaining node. -/
def kahnRun (succTs : RNode → List RNode) : Nat → (RNode → Int) → List RNode → List RNode → List RNode
  | 0, _, _, acc => acc
  | fuel+1, np, ready, acc =>
    match ready with
    | [] => acc
    | _ =>
      let np1 := markOut np ready
      let q := ((ready.map succTs).flatten).foldl decStep (np1, [])
      kahnRun succTs fuel q.1 q.2 (acc ++ ready)

/-- A failure of the chain machinery: `cycle` models `graphlib.CycleError`;
`fuel` models a computation that does not terminate (Python: unbounded
generator recursion, surfacing as `RecursionError`). -/
inductive ChainErr
  | cycle
  | fuel
deriving DecidableEq

/-- `TopologicalSorter(graph).static_order()`: build the sorter state,
start from the nodes with no predecessors (in discovery order), and run the
batch loop.  If not every discovered node was emitted the edge set has a
cycle (`CycleError`, raised before any node is handed out). -/
def staticOrder (g : Graph) : Except ChainErr (List RNode) :=
  let ts := buildTS g
  let ready0 := ts.order.filter (fun n => ts.npred n == 0)
  let res := kahnRun ts.succ (ts.order.length + 1) ts.npred ready0 []
  if res.length = ts.order.length then .ok res else .error .cycle

/-- The mutable state of one `_ReactorChain`: the edge map and the cached
remaining topological order (`_target_nodes`; `none` when invalidated). -/
structure Chain where
  graph : Graph
  cache : Option (List RNode)

/-- The pop-and-skip loop of `_ReactorChain.__next__`: take the next node of
the cached order, remove it from the edge map, and skip controller nodes
(which are kept for graph resolution but are not invoked). -/
def popNext : List RNode → Graph → Option (RNode × Chain)
  | [], _ => none
  | n :: rest, g =>
    let g' := graphDrop g n
    match n with
    | RNode.ctrl _ => popNext rest g'
    | _ => some (n, ⟨g', some rest⟩)

/-- `_ReactorChain.__next__`: rebuild the topological order from the current
edge map when the cache was invalidated, then pop the next invocable node. -/
def chainNext (ch : Chain) : Except ChainErr (Option (RNode × Chain)) :=
  match ch.cache with
  | some order => .ok (popNext order ch.graph)
  | none =>
    match staticOrder ch.graph with
    | .error e => .error e
    | .ok order => .ok (popNext order ch.graph)

/-- `_ReactorChain.update`: invalidate the cached order and merge the edges
resolved from the triggered controller into the edge map. -/
def updateChain (env : Nat → List RNode) (fuel : Nat) (ch : Chain) (c : Nat) (o : Origin) : Option Chain :=
  match resolveEdges env fuel none (RNode.ctrl c) o with
  | none => none
  | some es => some ⟨graphMerge ch.graph es, none⟩

/-- The re-entrant trigger calls a reactor performs while being invoked:
for each reactor id, the list of (controller id, origin) pairs passed to
`ReactorController.trigger` / `_trigger` during its execution. -/
abbrev Act := Nat → List (Nat × Origin)

/-- Re-entrant `_ReactorChainTrigger.trigger` calls made while a chain is
in flight: each one merges into the current chain (`cls._current.update`). -/
def applyActs (env : Nat → List RNode) (fuel : Nat) : List (Nat × Origin) → Chain → Option Chain
  | [], ch => some ch
  | a :: rest, ch =>
    match updateChain env fuel ch a.1 a.2 with
    | none => none
    | some ch' => applyActs env fuel rest ch'

/-- The drain loop of `_ReactorChain.trigger` (`for target_reactor in self:
target_reactor()`): pop the next node, record its invocation, and apply any
re-entrant trigger calls the invoked reactor performs (hooks of the base
`ReactorController` are no-ops).  The fuel bounds the loop, which re-added
nodes can otherwise extend forever. -/
def drainLoop (env : Nat → List RNode) (act : Act) : Nat → Chain → List RNode → Except ChainErr (List RNode)
  | 0, _, _ => .error .fuel
  | fuel+1, ch, log =>
    match chainNext ch with
    | .error e => .error e
    | .ok none => .ok log
    | .ok (some (n, ch')) =>
      match n with
      | RNode.reactor r =>
        match applyActs env fuel (act r) ch' with
        | none => .error .fuel
        | some ch2 => drainLoop env act fuel ch2 (log ++ [n])
      | _ => drainLoop env act fuel ch' (log ++ [n])

/-- `_ReactorChainTrigger.trigger` with no chain in flight, as called by
`ReactorController.trigger` / `_trigger`: create a fresh chain, populate it
from the triggered controller, and drain it; the log lists every invoked
node (hooks and plain reactors) in invocation order. -/
def triggerTop (env : Nat → List RNode) (act : Act) (c : Nat) (o : Origin) (fuel : Nat) : Except ChainErr (List RNode) :=
  match updateChain env fuel ⟨[], none⟩ c o with
  | none => .error .fuel
  | some ch => drainLoop env act fuel ch []

/-- `B` is directly or transitively subscribed downstream of `A`: the
controller node of `b` is among `a`'s reactors, possibly through a chain of
intermediate controllers. -/
inductive Downstream (env : Nat → List RNode) : Nat → Nat → Prop
  | direct {a b : Nat} : RNode.ctrl b ∈ env a → Downstream env a b
  | step {a b c : Nat} : RNode.ctrl b ∈ env a → Downstream env b c → Downstream env a c

/-- Reactors that perform no re-entrant trigger calls. -/
def actNil : Act := fun _ => []

/-- The chain `A→B→C` of the re-entrancy consolidation scenario: controller
0 subscribes controller 1, which subscribes controller 2, whose plain
reactor (reactor 0) re-entrantly triggers controller 3, which subscribes
controller 4. -/
def envScenC1 : Nat → List RNode
  | 0 => [.ctrl 1]
  | 1 => [.ctrl 2]
  | 2 => [.reactor 0]
  | 3 => [.ctrl 4]
  | _ => []

/-- Reactor 0 calls `trigger()` on controller 3 while the chain is
draining. -/
def actScenC1 : Act := fun r => if r = 0 then [(3, .external)] else []

/-- The shared-reactor scenario: controller 0 subscribes controller 1 and
plain reactor 0; reactor 0 is also subscribed to controller 1. -/
def envScenC2 : Nat → List RNode
  | 0 => [.ctrl 1, .reactor 0]
  | 1 => [.reactor 0]
  | _ => []

/-- The re-entrant re-invocation scenario: controller 0 has plain reactors
0 and 1; reactor 1 re-entrantly triggers controller 1, whose only reactor
is reactor 0 (already drained by then). -/
def envScenC3 : Nat → List RNode
  | 0 => [.reactor 0, .reactor 1]
  | 1 => [.reactor 0]
  | _ => []

/-- Reactor 1 calls `trigger()` on controller 1 mid-drain. -/
def actScenC3 : Act := fun r => if r = 1 then [(1, .external)] else []

/-- The two-controller cycle `A.react(B); B.react(A)`. -/
def envCycle : Nat → List RNode
  | 0 => [.ctrl 1]
  | 1 => [.ctrl 0]
  | _ => []

/-- On the cyclic subscription graph, `_resolve_edges` recurses through the
cycle without a visited set and never terminates: the expansion fails for
every fuel value. -/
def cyclicResolutionDiverges : Prop :=
  ∀ fuel src o, resolveEdges envCycle fuel src (RNode.ctrl 0) o = none ∧
    resolveEdges envCycle fuel src (RNode.ctrl 1) o = none

theorem cycleResolveNone : cyclicResolutionDiverges := by
  intro fuel
  induction fuel with
  | zero => intro src o; exact ⟨rfl, rfl⟩
  | succ n ih =>
    intro src o
    constructor
    · show resolveEdges envCycle (n+1) src (RNode.ctrl 0) o = none
      simp only [resolveEdges, envCycle, resolveListF, (ih _ .external).2]
    · show resolveEdges envCycle (n+1) src (RNode.ctrl 1) o = none
      simp only [resolveEdges, envCycle, resolveListF, (ih _ .external).1]

/-- C1: a re-entrant `trigger` raised while a chain is draining is merged
into the in-flight chain (`_ReactorChainTrigger.trigger` calls
`cls._current.update` and starts no second chain): for the chain
`A→B→C` (controllers 0→1→2) whose reactor re-entrantly triggers `D` (3)
with `D→E` (3→4), the single consolidated burst drains in the order
`A, B, C, D, E` — one log, with D's subgraph appended inside it, not a
separate burst. -/
theorem c1_reentrant_trigger_consolidated :
    triggerTop envScenC1 actScenC1 0 .external 40 =
      .ok [RNode.hook 0, RNode.hook 1, RNode.hook 2, RNode.reactor 0, RNode.hook 3, RNode.hook 4] := by
  rfl

/-- C2 counterexample: with controller 1 downstream of controller 0 and
plain reactor 0 subscribed to both, the burst triggered at controller 0
invokes controller 1's on-trigger hook strictly before reactor 0 — one of
controller 0's own reactors — because the shared reactor is ordered after
every hook it depends on.  This refutes the claim that A's own reactors
always run before B's hook and reactors. -/
theorem c2_counterexample_shared_reactor :
    Downstream envScenC2 0 1 ∧
    RNode.reactor 0 ∈ envScenC2 0 ∧
    triggerTop envScenC2 actNil 0 .external 40 =
      .ok [RNode.hook 0, RNode.hook 1, RNode.reactor 0] ∧
    List.indexOf (RNode.hook 1) [RNode.hook 0, RNode.hook 1, RNode.reactor 0] <
      List.indexOf (RNode.reactor 0) [RNode.hook 0, RNode.hook 1, RNode.reactor 0] := by
  refine ⟨Downstream.direct ?_, ?_, ?_, ?_⟩
  · simp [envScenC2]
  · simp [envScenC2]
  · rfl
  · decide

/-- C3 counterexample: controller 0 drains reactors 0 then 1; reactor 1
re-entrantly triggers controller 1, whose reactor list contains the
already-drained reactor 0.  The merge re-adds reactor 0 to the in-flight
chain's graph, and the extended burst invokes it a second time: nodes are
not invoked at most once when re-entrant triggers extend the burst. -/
theorem c3_counterexample_reentrant_double_run :
    triggerTop envScenC3 actScenC3 0 .external 40 =
      .ok [RNode.hook 0, RNode.reactor 0, RNode.reactor 1, RNode.hook 1, RNode.reactor 0] ∧
    (triggerTop envScenC3 actScenC3 0 .external 40).toOption.map
      (fun log => log.count (RNode.reactor 0)) = some 2 := by
  exact ⟨rfl, rfl⟩

/-- C4 counterexample: on the cyclic graph `A.react(B); B.react(A)`,
triggering `A` does not raise `CycleError`: `_resolve_edges` recurses
through the cycle without a visited set and never terminates (for every
fuel value the expansion is still incomplete), so the topological step that
could raise `CycleError` is never reached. -/
theorem c4_counterexample_cycle_diverges : cyclicResolutionDiverges :=
  cycleResolveNone

/-- C4 amended: triggering a controller of the cyclic pair loops inside
edge resolution for every fuel bound (in Python: unbounded recursion ending
in `RecursionError`), and in particular never produces the `CycleError`
outcome of the topological step. -/
theorem c4_cycle_never_cycle_error :
    ∀ fuel o, triggerTop envCycle actNil 0 o fuel = .error ChainErr.fuel := by
  intro fuel o
  unfold triggerTop updateChain
  rw [(cycleResolveNone fuel none o).1]

/-- A downstream entry of `ReactorController.__reactors`: a node held
directly or through a weak reference (`react` vs `react_weakref`).
Equality of entries models Python's identity-flavoured equality: a live
weakref compares equal to another weakref of the same referent, and never
to a directly-held node. -/
inductive Entry
  | strong (n : RNode)
  | weak (n : RNode)
deriving DecidableEq

/-- Dereference an entry (`_unweakref`). -/
def entryNode : Entry → RNode
  | .strong n => n
  | .weak n => n

/-- `ReactorController._append_reactor`: append the entry unless an equal
entry is already present. -/
def appendReactor (l : List Entry) (e : Entry) : List Entry :=
  if e ∈ l then l else l ++ [e]

/-- An argument of `react` (`ResolvableReactor`): a graph node passed
directly, or a `Reactive` object that `_resolve_reactor` resolves to its
controller. -/
inductive Resolvable
  | node (n : RNode)
  | reactive (c : Nat)

/-- `ReactorController._resolve_reactor`. -/
def resolveReactor : Resolvable → RNode
  | .node n => n
  | .reactive c => RNode.ctrl c

/-- `ReactorController.react(*reactors)`: resolve each argument and append
it through `_append_reactor`. -/
def reactCalls (l : List Entry) (rs : List Resolvable) : List Entry :=
  rs.foldl (fun a r => appendReactor a (Entry.strong (resolveReactor r))) l

/-- `ReactorController.react_weakref` for one node: append a weak entry
through `_append_reactor`. -/
def reactWeak (l : List Entry) (n : RNode) : List Entry :=
  appendReactor l (Entry.weak n)

/-- `ReactorController._shutdown_reactor`: remove every entry whose
dereferenced node equals the given node (the reverse iteration in the
source only guards list reindexing). -/
def shutdownNode (l : List Entry) (n : RNode) : List Entry :=
  l.filter (fun e => !(entryNode e == n))

/-- The state touched by `reactives/scope.py`: each controller's downstream
entry list (`__reactors`), each controller's `_dependencies` list, and the
module-global `_dependencies` pointer.  The pointer aliases the dependency
list of the controller currently being collected, so it is modelled as
that controller's id (`none` when no collection is active). -/
structure ScopeSt where
  reactors : Nat → List Entry
  deps : Nat → List Nat
  cur : Option Nat

/-- The empty initial scope state (fresh controllers, no active
collection). -/
def scopeInit : ScopeSt := ⟨fun _ => [], fun _ => [], none⟩

/-- One step of `scope.clear`'s loop: `dependency.shutdown(dependent)`. -/
def clearStep (dep : Nat) (a : ScopeSt) (d : Nat) : ScopeSt :=
  { a with reactors := fun c => if c = d then shutdownNode (a.reactors c) (RNode.ctrl dep) else a.reactors c }

/-- `scope.clear(dependent)`: unsubscribe the dependent from every
controller in its dependency list, then clear the list. -/
def clearDep (s : ScopeSt) (dep : Nat) : ScopeSt :=
  let s1 := (s.deps dep).foldl (clearStep dep) s
  { s1 with deps := fun c => if c = dep then [] else s1.deps c }

/-- `scope.register(dependent)`: when a collection is active, append the
resolved controller to the active dependency list. -/
def registerDep (s : ScopeSt) (d : Nat) : ScopeSt :=
  match s.cur with
  | none => s
  | some c => { s with deps := fun x => if x = c then s.deps x ++ [d] else s.deps x }

/-- One step of `scope.collect`'s autowiring loop:
`dependency.react_weakref(dependent)`. -/
def autowireStep (dep : Nat) (a : ScopeSt) (d : Nat) : ScopeSt :=
  { a with reactors := fun c => if c = d then reactWeak (a.reactors c) (RNode.ctrl dep) else a.reactors c }

/-- An evaluation run under the scope machinery: dependency reads
(`scope.register`), failures, sequencing, and nested `scope.collect`
blocks. -/
inductive SEv
  | skipE
  | registerE (c : Nat)
  | throwE
  | seqE (a b : SEv)
  | collectE (dep : Nat) (body : SEv)

/-- Run an evaluation.  The boolean records normal completion; a raised
exception (`throwE`) aborts the surrounding evaluation.  `collectE`
mirrors `scope.collect` exactly: clear the dependent's previous
subscriptions, save the previous pointer, point the collector at the
dependent's (cleared) list, run the body, and — only on normal
completion, as the `@contextmanager` body has no `try`/`finally` — restore
the pointer and autowire the dependent to every collected dependency. -/
def runEval : SEv → ScopeSt → ScopeSt × Bool
  | .skipE, s => (s, true)
  | .registerE c, s => (registerDep s c, true)
  | .throwE, s => (s, false)
  | .seqE a b, s =>
    match runEval a s with
    | (s1, true) => runEval b s1
    | r => r
  | .collectE dep body, s =>
    let s1 := clearDep s dep
    let orig := s1.cur
    match runEval body { s1 with cur := some dep } with
    | (s3, true) =>
      let s4 := { s3 with cur := orig }
      ((s4.deps dep).foldl (autowireStep dep) s4, true)
    | (s3, false) => (s3, false)

/-- `CallableDefinition._call`: register the reactive attribute with the
(outer) scope, then evaluate its body under `scope.collect`. -/
def callE (dep : Nat) (body : SEv) : SEv :=
  .seqE (.registerE dep) (.collectE dep body)

/-- An evaluation that merely reads the given dependencies in order. -/
def ofRegisters : List Nat → SEv
  | [] => .skipE
  | d :: ds => .seqE (.registerE d) (ofRegisters ds)

theorem autowire_foldl_cur (dep : Nat) (l : List Nat) (s : ScopeSt) :
    (l.foldl (autowireStep dep) s).cur = s.cur := by
  induction l generalizing s with
  | nil => rfl
  | cons d ds ih => simpa [autowireStep] using ih _

theorem autowire_foldl_deps (dep : Nat) (l : List Nat) (s : ScopeSt) :
    (l.foldl (autowireStep dep) s).deps = s.deps := by
  induction l generalizing s with
  | nil => rfl
  | cons d ds ih => simpa [autowireStep] using ih _

theorem clear_foldl_cur (dep : Nat) (l : List Nat) (s : ScopeSt) :
    (l.foldl (clearStep dep) s).cur = s.cur := by
  induction l generalizing s with
  | nil => rfl
  | cons d ds ih => simpa [clearStep] using ih _

theorem clear_foldl_deps (dep : Nat) (l : List Nat) (s : ScopeSt) :
    (l.foldl (clearStep dep) s).deps = s.deps := by
  induction l generalizing s with
  | nil => rfl
  | cons d ds ih => simpa [clearStep] using ih _

theorem clearDep_cur (dep : Nat) (s : ScopeSt) : (clearDep s dep).cur = s.cur := by
  simp [clearDep, clear_foldl_cur]

theorem clearDep_deps_ne (dep c : Nat) (s : ScopeSt) (h : c ≠ dep) :
    (clearDep s dep).deps c = s.deps c := by
  simp [clearDep, clear_foldl_deps, h]

/-- C5: `scope.collect` removes the previous evaluation's subscriptions
before the evaluation runs and replaces them with exactly the dependencies
touched: after collecting an evaluation of `f` that registered only `x`,
`f`'s dependency list is `[x]` and `x`'s downstream holds a weak entry for
`f`; after a subsequent collection of `f` that registered only `y`, `f`'s
dependency list is `[y]`, the weak edge from `x` to `f` is gone, and a weak
edge from `y` to `f` exists. -/
theorem c5_autowire_rebuild (f x y : Nat) (hfx : f ≠ x) (hxy : x ≠ y) (hfy : f ≠ y) :
    ((runEval (.collectE f (.registerE x)) scopeInit).1.deps f = [x] ∧
     Entry.weak (RNode.ctrl f) ∈ (runEval (.collectE f (.registerE x)) scopeInit).1.reactors x ∧
     (runEval (.collectE f (.registerE x)) scopeInit).2 = true) ∧
    ((runEval (.seqE (.collectE f (.registerE x)) (.collectE f (.registerE y))) scopeInit).1.deps f = [y] ∧
     Entry.weak (RNode.ctrl f) ∈ (runEval (.seqE (.collectE f (.registerE x)) (.collectE f (.registerE y))) scopeInit).1.reactors y ∧
     (∀ e ∈ (runEval (.seqE (.collectE f (.registerE x)) (.collectE f (.registerE y))) scopeInit).1.reactors x,
        entryNode e ≠ RNode.ctrl f)) := by
  constructor
  · simp [runEval, clearDep, clearStep, registerDep, autowireStep, reactWeak, appendReactor,
      shutdownNode, scopeInit, hfx, hxy, hfy, Ne.symm hfx, Ne.symm hxy, Ne.symm hfy]
  · simp [runEval, clearDep, clearStep, registerDep, autowireStep, reactWeak, appendReactor,
      shutdownNode, scopeInit, hfx, hxy, hfy, Ne.symm hfx, Ne.symm hxy, Ne.symm hfy, entryNode]

theorem c5_autowire_rebuild_witness :
    (0:Nat) ≠ 1 ∧ (1:Nat) ≠ 2 ∧ (0:Nat) ≠ 2 ∧
    (runEval (.collectE 0 (.registerE 1)) scopeInit).1.deps 0 = [1] ∧
    Entry.weak (RNode.ctrl 0) ∈ (runEval (.collectE 0 (.registerE 1)) scopeInit).1.reactors 1 ∧
    (runEval (.collectE 0 (.registerE 1)) scopeInit).2 = true ∧
    (runEval (.seqE (.collectE 0 (.registerE 1)) (.collectE 0 (.registerE 2))) scopeInit).1.deps 0 = [2] ∧
    Entry.weak (RNode.ctrl 0) ∈ (runEval (.seqE (.collectE 0 (.registerE 1)) (.collectE 0 (.registerE 2))) scopeInit).1.reactors 2 :=
  ⟨by decide, by decide, by decide,
    (c5_autowire_rebuild 0 1 2 (by decide) (by decide) (by decide)).1.1,
    (c5_autowire_rebuild 0 1 2 (by decide) (by decide) (by decide)).1.2.1,
    (c5_autowire_rebuild 0 1 2 (by decide) (by decide) (by decide)).1.2.2,
    (c5_autowire_rebuild 0 1 2 (by decide) (by decide) (by decide)).2.1,
    (c5_autowire_rebuild 0 1 2 (by decide) (by decide) (by decide)).2.2.1⟩

/-- C7 counterexample: when the evaluation under `scope.collect` raises,
the module-global collector pointer is not restored: the
`@contextmanager` generator has no `try`/`finally`, so the exception thrown
at the `yield` skips the restore.  Starting with no active collector, a
failed collection of controller 0 leaves the pointer aliasing controller
0's dependency list. -/
theorem c7_counterexample_exception_pointer :
    scopeInit.cur = none ∧
    (runEval (.collectE 0 .throwE) scopeInit).2 = false ∧
    (runEval (.collectE 0 .throwE) scopeInit).1.cur = some 0 := by
  exact ⟨rfl, rfl, rfl⟩

/-- C7 amended: the collector pointer is saved before the evaluation and
restored after it for every evaluation that completes normally; when the
evaluation raises, the restore (and the autowiring) is skipped and the
pointer keeps whatever value the aborted evaluation left. -/
theorem c7_pointer_restored_on_success (dep : Nat) (body : SEv) (s s' : ScopeSt)
    (h : runEval (.collectE dep body) s = (s', true)) : s'.cur = s.cur := by
  rw [runEval] at h
  split at h
  · next s3 heq =>
    have hs' : s' = (({ s3 with cur := (clearDep s dep).cur } : ScopeSt).deps dep).foldl
        (autowireStep dep) { s3 with cur := (clearDep s dep).cur } :=
      (congrArg Prod.fst h).symm
    rw [hs', autowire_foldl_cur]
    exact clearDep_cur dep s
  · next s3 heq => exact absurd (congrArg Prod.snd h) (by simp)

theorem c7_pointer_restored_on_success_witness :
    runEval (.collectE 0 .skipE) scopeInit = ((runEval (.collectE 0 .skipE) scopeInit).1, true) ∧
    (runEval (.collectE 0 .skipE) scopeInit).1.cur = scopeInit.cur :=
  ⟨rfl, c7_pointer_restored_on_success 0 .skipE scopeInit _ rfl⟩

/-- C8 counterexample: `scope.collect` itself does not register the
dependent with an already-active outer scope: collecting controller 0
while the pointer aliases controller 9's (empty) dependency list leaves
controller 9's dependencies empty. -/
theorem c8_counterexample_collect_no_outer_registration :
    ({ scopeInit with cur := some 9 } : ScopeSt).deps 9 = [] ∧
    (runEval (.collectE 0 .skipE) { scopeInit with cur := some 9 }).2 = true ∧
    (runEval (.collectE 0 .skipE) { scopeInit with cur := some 9 }).1.deps 9 = [] := by
  exact ⟨rfl, rfl, rfl⟩

theorem registerDep_cur (s : ScopeSt) (d : Nat) : (registerDep s d).cur = s.cur := by
  unfold registerDep
  cases hc : s.cur with
  | none => exact hc
  | some c => rfl

theorem registerDep_deps_ne (s : ScopeSt) (d c : Nat) (h : s.cur ≠ some c) :
    (registerDep s d).deps c = s.deps c := by
  unfold registerDep
  cases hc : s.cur with
  | none => rfl
  | some e =>
    have : ¬ c = e := fun he => h (by rw [hc, he])
    simp [this]

theorem ofRegisters_run (dep : Nat) (ds : List Nat) (s : ScopeSt) (hc : s.cur = some dep) :
    (runEval (ofRegisters ds) s).2 = true ∧
    (runEval (ofRegisters ds) s).1.cur = some dep ∧
    ∀ c, c ≠ dep → (runEval (ofRegisters ds) s).1.deps c = s.deps c := by
  induction ds generalizing s with
  | nil => exact ⟨rfl, hc, fun c _ => rfl⟩
  | cons d ds ih =>
    have hstep : runEval (ofRegisters (d :: ds)) s = runEval (ofRegisters ds) (registerDep s d) := rfl
    have hc1 : (registerDep s d).cur = some dep := by rw [registerDep_cur, hc]
    have ihx := ih (registerDep s d) hc1
    refine ⟨by rw [hstep]; exact ihx.1, by rw [hstep]; exact ihx.2.1, fun c hcd => ?_⟩
    rw [hstep, ihx.2.2 c hcd, registerDep_deps_ne]
    rw [hc]
    intro hsom
    exact hcd (Option.some.inj hsom).symm

/-- C8 amended: registration of the dependent into the outer scope's
collected list is performed by the caller, not by `collect`:
`CallableDefinition._call` calls `scope.register(dependent)` before
entering `scope.collect`, so every nested evaluation routed through
`_call` leaves the dependent among the outer computation's dependencies. -/
theorem c8_call_registers_into_outer (out dep : Nat) (hod : out ≠ dep) (ds : List Nat)
    (s : ScopeSt) (hcur : s.cur = some out) :
    (runEval (callE dep (ofRegisters ds)) s).2 = true ∧
    dep ∈ (runEval (callE dep (ofRegisters ds)) s).1.deps out := by
  have h1 : runEval (callE dep (ofRegisters ds)) s =
      runEval (.collectE dep (ofRegisters ds)) (registerDep s dep) := rfl
  have hs1cur : (registerDep s dep).cur = some out := by rw [registerDep_cur, hcur]
  have hs1out : (registerDep s dep).deps out = s.deps out ++ [dep] := by
    unfold registerDep
    rw [hcur]
    simp
  have hc2 : ({ clearDep (registerDep s dep) dep with cur := some dep } : ScopeSt).cur = some dep := rfl
  have h2 := ofRegisters_run dep ds { clearDep (registerDep s dep) dep with cur := some dep } hc2
  have hsplit : runEval (ofRegisters ds) { clearDep (registerDep s dep) dep with cur := some dep } =
      ((runEval (ofRegisters ds) { clearDep (registerDep s dep) dep with cur := some dep }).1, true) := by
    have := h2.1
    cases hrun : runEval (ofRegisters ds) { clearDep (registerDep s dep) dep with cur := some dep } with
    | mk a b => rw [hrun] at this; simp at this; simp [this]
  rw [h1, runEval, hsplit]
  refine ⟨rfl, ?_⟩
  rw [autowire_foldl_deps]
  have hdeps : (({ (runEval (ofRegisters ds) { clearDep (registerDep s dep) dep with cur := some dep }).1 with
      cur := (clearDep (registerDep s dep) dep).cur } : ScopeSt)).deps out = s.deps out ++ [dep] := by
    show (runEval (ofRegisters ds) { clearDep (registerDep s dep) dep with cur := some dep }).1.deps out = _
    rw [h2.2.2 out hod]
    show (clearDep (registerDep s dep) dep).deps out = _
    rw [clearDep_deps_ne dep out _ hod, hs1out]
  rw [hdeps]
  simp

theorem c8_call_registers_into_outer_witness :
    (1:Nat) ≠ 0 ∧ ({ scopeInit with cur := some 1 } : ScopeSt).cur = some 1 ∧
    ((runEval (callE 0 (ofRegisters [2])) { scopeInit with cur := some 1 }).2 = true ∧
     0 ∈ (runEval (callE 0 (ofRegisters [2])) { scopeInit with cur := some 1 }).1.deps 1) :=
  ⟨by decide, rfl, c8_call_registers_into_outer 1 0 (by decide) [2] _ rfl⟩

/-- A node of the legacy chain graph of `reactives/controller.py`: a plain
reactor callable or the bound `trigger` method of a reactive object's
controller, as produced by `_expand_reactor`. -/
inductive ONode
  | plain (r : Nat)
  | trig (c : Nat)
deriving DecidableEq

/-- An element of a legacy controller's `_reactors` list: a plain callable
or a reactive object (something `is_reactive` accepts, carrying its own
controller). -/
inductive ODef
  | plain (r : Nat)
  | reactive (c : Nat)

/-- Generic sequencing of per-element generator expansions (concatenation
in order, divergence propagating). -/
def seqOpt {α β : Type} (f : α → Option (List β)) : List α → Option (List β)
  | [] => some []
  | a :: l =>
    match f a, seqOpt f l with
    | some x, some y => some (x ++ y)
    | _, _ => none

/-- `ReactorController._expand_reactor` of the legacy controller: a
reactive object yields the edge to its controller's `trigger` and then the
expansion of that controller's own reactors with the `trigger` as caller;
anything else is a leaf.  The generator recursion again has no visited
set, hence the fuel. -/
def oexpand (oenv : Nat → List ODef) : Nat → Option ONode → ODef → Option (List (Option ONode × ONode))
  | 0, _, _ => none
  | fuel+1, caller, d =>
    match d with
    | .plain r => some [(caller, .plain r)]
    | .reactive c =>
      match seqOpt (oexpand oenv fuel (some (.trig c))) (oenv c) with
      | none => none
      | some rest => some ((caller, .trig c) :: rest)

/-- The class-level state of the legacy `ReactorController`: the global
suspension flag, the reacting flag, the chain graph
(`_chain_reactor_graph`, keys in insertion order, each source set modelled
as a de-duplicated list), the reactor deque, the currently executing node,
and the accumulated log of plain-reactor invocations. -/
structure OldSt where
  suspended : Bool
  reacting : Bool
  graph : List (ONode × List ONode)
  chainQ : List ONode
  current : Option ONode
  log : List Nat

/-- The initial legacy state. -/
def oldInit : OldSt := ⟨false, false, [], [], none, []⟩

/-- Graph population of `_update_reactor_graph`: ensure the target key
exists, then add the source to the target's set when present. -/
def oldGraphAdd (g : List (ONode × List ONode)) (s : Option ONode) (t : ONode) : List (ONode × List ONode) :=
  let g1 := if g.any (fun e => e.1 == t) then g else g ++ [(t, [])]
  match s with
  | none => g1
  | some s' =>
    g1.map (fun e => if e.1 = t then (e.1, if s' ∈ e.2 then e.2 else e.2 ++ [s']) else e)

/-- The sorter state of the legacy graph (same `graphlib` machinery,
specialised to `ONode`). -/
structure OTS where
  order : List ONode
  npred : ONode → Int
  succ : ONode → List ONode

/-- Register an `ONode` on first sight. -/
def otsSeen (ts : OTS) (n : ONode) : OTS :=
  if n ∈ ts.order then ts else { ts with order := ts.order ++ [n] }

/-- `TopologicalSorter.add` for one legacy entry. -/
def otsAddEntry (ts : OTS) (t : ONode) (srcs : List ONode) : OTS :=
  let ts1 := otsSeen ts t
  let ts2 : OTS :=
    { ts1 with npred := fun x => if x = t then ts1.npred x + srcs.length else ts1.npred x }
  srcs.foldl (fun a s =>
    let a1 := otsSeen a s
    { a1 with succ := fun x => if x = s then a1.succ x ++ [t] else a1.succ x }) ts2

/-- Build the legacy sorter state. -/
def obuildTS (g : List (ONode × List ONode)) : OTS :=
  g.foldl (fun ts e => otsAddEntry ts e.1 e.2) ⟨[], fun _ => 0, fun _ => []⟩

/-- One decrement step of the legacy `done`. -/
def odecStep (p : (ONode → Int) × List ONode) (t : ONode) : (ONode → Int) × List ONode :=
  let v := p.1 t - 1
  let np : ONode → Int := fun x => if x = t then v else p.1 x
  if v = 0 then (np, p.2 ++ [t]) else (np, p.2)

/-- Marking of handed-out legacy nodes. -/
def omarkOut (np : ONode → Int) (batch : List ONode) : ONode → Int :=
  batch.foldl (fun f n => fun x => if x = n then -2 else f x) np

/-- The legacy batch loop. -/
def okahnRun (succTs : ONode → List ONode) : Nat → (ONode → Int) → List ONode → List ONode → List ONode
  | 0, _, _, acc => acc
  | fuel+1, np, ready, acc =>
    match ready with
    | [] => acc
    | _ =>
      let np1 := omarkOut np ready
      let q := ((ready.map succTs).flatten).foldl odecStep (np1, [])
      okahnRun succTs fuel q.1 q.2 (acc ++ ready)

/-- `static_order` over the legacy graph. -/
def ostaticOrder (g : List (ONode × List ONode)) : Except ChainErr (List ONode) :=
  let ts := obuildTS g
  let ready0 := ts.order.filter (fun n => ts.npred n == 0)
  let res := okahnRun ts.succ (ts.order.length + 1) ts.npred ready0 []
  if res.length = ts.order.length then .ok res else .error .cycle

/-- `_update_reactor_graph` of the legacy controller: a controller with no
reactors returns without touching the chain state; otherwise every reactor
is expanded, the edges populate the class-level graph, and the reactor
deque is replaced by a fresh topological order of the whole graph. -/
def oldUpdateGraph (oenv : Nat → List ODef) (fuel : Nat) (c : Nat) (st : OldSt) : Except ChainErr OldSt :=
  if (oenv c).isEmpty then .ok st
  else
    match seqOpt (oexpand oenv fuel none) (oenv c) with
    | none => .error .fuel
    | some es =>
      let g := es.foldl (fun a e => oldGraphAdd a e.1 e.2) st.graph
      match ostaticOrder g with
      | .error e => .error e
      | .ok ord => .ok { st with graph := g, chainQ := ord }

mutual

/-- `ReactorController.trigger` of the legacy controller: a no-op while the
global suspension flag is set; a no-op when this controller's own trigger
is the chain's currently executing node (self-trigger guard); otherwise
update the graph and run the chain. -/
def oldTrigger (oenv : Nat → List ODef) : Nat → Nat → OldSt → Except ChainErr OldSt
  | 0, _, _ => .error .fuel
  | fuel+1, c, st =>
    if st.suspended then .ok st
    else if st.current = some (ONode.trig c) then .ok st
    else
      match oldUpdateGraph oenv fuel c st with
      | .error e => .error e
      | .ok st1 =>
        if st1.reacting then .ok st1
        else oldChainLoop oenv fuel { st1 with reacting := true }
termination_by structural fuel => fuel

/-- `_trigger_reactor_chain`'s drain loop: pop the next node, record it as
current, delete its graph key, and invoke it — a plain reactor is logged, a
`trigger` bound method re-enters `trigger` (where the self-guard or the
reacting flag stops recursion).  The loop ends when the deque is empty,
resetting the reacting flag and the current node. -/
def oldChainLoop (oenv : Nat → List ODef) : Nat → OldSt → Except ChainErr OldSt
  | 0, _ => .error .fuel
  | fuel+1, st =>
    match st.chainQ with
    | [] => .ok { st with reacting := false, current := none }
    | n :: q =>
      let st1 : OldSt := { st with
        chainQ := q
        current := some n
        graph := st.graph.filter (fun e => !(e.1 == n)) }
      match n with
      | .plain r => oldChainLoop oenv fuel { st1 with log := st1.log ++ [r] }
      | .trig c =>
        match oldTrigger oenv fuel c st1 with
        | .error e => .error e
        | .ok st2 => oldChainLoop oenv fuel st2
termination_by structural fuel => fuel

end

/-- A sequence of mutations: a `trigger()` call, or a
`ReactorController.suspend()` block around a nested sequence (the guard
saves the flag, sets it, runs the body and restores the saved value). -/
inductive OldOp
  | trig (c : Nat)
  | susp (body : List OldOp)

mutual

/-- Run one mutation. -/
def runOldOp (oenv : Nat → List ODef) (fuel : Nat) : OldOp → OldSt → Except ChainErr OldSt
  | .trig c, st => oldTrigger oenv fuel c st
  | .susp body, st =>
    match runOldOps oenv fuel body { st with suspended := true } with
    | .error e => .error e
    | .ok st1 => .ok { st1 with suspended := st.suspended }
termination_by structural op => op

/-- Run a sequence of mutations. -/
def runOldOps (oenv : Nat → List ODef) (fuel : Nat) : List OldOp → OldSt → Except ChainErr OldSt
  | [], st => .ok st
  | op :: rest, st =>
    match runOldOp oenv fuel op st with
    | .error e => .error e
    | .ok st1 => runOldOps oenv fuel rest st1
termination_by structural l => l

end

/-- A single legacy controller (id 0) with one plain reactor (id 0). -/
def oenvScenC6 : Nat → List ODef := fun c => if c = 0 then [.plain 0] else []

/-- C6: the global suspension guard.  (1) While the flag is set, every
`trigger` call returns immediately and changes nothing.  (2) Triggering a
controller with one reactor twice inside a `suspend()` block produces no
invocations, and a third trigger after the block produces exactly one.
(3) The guard nests by save/restore: a trigger between an inner block's
exit and the outer block's exit is still suppressed, and after the outer
exit propagation resumes. -/
theorem c6_suspension_guard :
    (∀ (oenv : Nat → List ODef) (fuel c : Nat) (st : OldSt), st.suspended = true →
      oldTrigger oenv (fuel+1) c st = .ok st) ∧
    (runOldOps oenvScenC6 20 [OldOp.susp [OldOp.trig 0, OldOp.trig 0], OldOp.trig 0] oldInit).map
      (fun st => (st.log, st.suspended)) = .ok ([0], false) ∧
    (runOldOps oenvScenC6 20
      [OldOp.susp [OldOp.trig 0, OldOp.susp [OldOp.trig 0], OldOp.trig 0], OldOp.trig 0] oldInit).map
      (fun st => (st.log, st.suspended)) = .ok ([0], false) := by
  refine ⟨fun oenv fuel c st h => ?_, rfl, rfl⟩
  rw [oldTrigger, if_pos h]

theorem c6_suspension_guard_witness :
    (({ oldInit with suspended := true } : OldSt).suspended = true) ∧
    oldTrigger oenvScenC6 5 0 { oldInit with suspended := true } =
      .ok { oldInit with suspended := true } :=
  ⟨rfl, (c6_suspension_guard.1 oenvScenC6 4 0 { oldInit with suspended := true } rfl)⟩

/-- C9: `react` routes every argument through `_append_reactor`, which
appends only if no equal entry is present: starting from a duplicate-free
downstream list, the list stays duplicate-free, the existing entries keep
their positions (the old list is a prefix of the new one), and the
resulting entries are exactly the old ones plus the resolved new nodes. -/
theorem c9_react_deduplicates (l : List Entry) (rs : List Resolvable) (h : l.Nodup) :
    (reactCalls l rs).Nodup ∧
    l <+: reactCalls l rs ∧
    ∀ e, e ∈ reactCalls l rs ↔ (e ∈ l ∨ e ∈ rs.map (fun r => Entry.strong (resolveReactor r))) := by
  induction rs generalizing l with
  | nil => exact ⟨h, by simp [reactCalls], by simp [reactCalls]⟩
  | cons r rs ih =>
    have hstep : reactCalls l (r :: rs) = reactCalls (appendReactor l (Entry.strong (resolveReactor r))) rs := rfl
    by_cases hm : Entry.strong (resolveReactor r) ∈ l
    · have happ : appendReactor l (Entry.strong (resolveReactor r)) = l := by
        simp [appendReactor, hm]
      rw [hstep, happ]
      obtain ⟨h1, h2, h3⟩ := ih l h
      refine ⟨h1, h2, fun e => ?_⟩
      rw [h3 e]
      constructor
      · rintro (he | he)
        · exact Or.inl he
        · exact Or.inr (by simp [he])
      · rintro (he | he)
        · exact Or.inl he
        · rcases List.mem_map.mp he with ⟨a, ha, rfl⟩
          rcases List.mem_cons.mp ha with rfl | ha
          · exact Or.inl hm
          · exact Or.inr (List.mem_map.mpr ⟨a, ha, rfl⟩)
    · have happ : appendReactor l (Entry.strong (resolveReactor r)) = l ++ [Entry.strong (resolveReactor r)] := by
        simp [appendReactor, hm]
      have hnd : (l ++ [Entry.strong (resolveReactor r)]).Nodup := by
        simp [List.nodup_append, h, hm]
      rw [hstep, happ]
      obtain ⟨h1, h2, h3⟩ := ih _ hnd
      refine ⟨h1, List.IsPrefix.trans ⟨[Entry.strong (resolveReactor r)], rfl⟩ h2, fun e => ?_⟩
      rw [h3 e]
      simp only [List.mem_append, List.mem_singleton, List.map_cons, List.mem_cons]
      tauto

theorem c9_react_deduplicates_witness :
    List.Nodup ([Entry.strong (RNode.reactor 7)]) ∧
    ((reactCalls [Entry.strong (RNode.reactor 7)]
        [.node (RNode.reactor 5), .node (RNode.reactor 5), .reactive 3, .node (RNode.reactor 7)]).Nodup ∧
     [Entry.strong (RNode.reactor 7)] <+: reactCalls [Entry.strong (RNode.reactor 7)]
        [.node (RNode.reactor 5), .node (RNode.reactor 5), .reactive 3, .node (RNode.reactor 7)] ∧
     (Entry.strong (RNode.ctrl 3) ∈ reactCalls [Entry.strong (RNode.reactor 7)]
        [.node (RNode.reactor 5), .node (RNode.reactor 5), .reactive 3, .node (RNode.reactor 7)] ↔
      (Entry.strong (RNode.ctrl 3) ∈ [Entry.strong (RNode.reactor 7)] ∨
       Entry.strong (RNode.ctrl 3) ∈ List.map (fun r => Entry.strong (resolveReactor r))
        [.node (RNode.reactor 5), .node (RNode.reactor 5), .reactive 3, .node (RNode.reactor 7)]))) := by
  refine ⟨by decide, ?_, ?_, ?_⟩
  · exact (c9_react_deduplicates _ _ (by decide)).1
  · exact (c9_react_deduplicates _ _ (by decide)).2.1
  · exact (c9_react_deduplicates _ _ (by decide)).2.2 _

/-- Invocable nodes: everything except controller markers, which
`__next__` skips. -/
def nonCtrl : RNode → Bool
  | .ctrl _ => false
  | _ => true

/-- The multiset of directed edges `(source, target)` described by an edge
map. -/
def edgeList (g : Graph) : List (RNode × RNode) :=
  (g.map (fun e => e.2.map (fun s => (s, e.1)))).flatten

/-- An edge is present in an edge map. -/
def graphEdge (g : Graph) (s t : RNode) : Prop :=
  ∃ srcs, (t, srcs) ∈ g ∧ s ∈ srcs

theorem edgeList_of_graphEdge {g : Graph} {s t : RNode} (h : graphEdge g s t) :
    (s, t) ∈ edgeList g := by
  obtain ⟨srcs, hmem, hs⟩ := h
  unfold edgeList
  rw [List.mem_flatten]
  exact ⟨srcs.map (fun x => (x, t)), List.mem_map.mpr ⟨(t, srcs), hmem, rfl⟩,
    List.mem_map.mpr ⟨s, hs, rfl⟩⟩

theorem graphAdd_edge (g : Graph) (s t : RNode) : graphEdge (graphAdd g s t) s t := by
  induction g with
  | nil => exact ⟨[s], by simp [graphAdd], by simp⟩
  | cons e rest ih =>
    by_cases he : e.1 = t
    · exact ⟨e.2 ++ [s], by simp [graphAdd, he], by simp⟩
    · obtain ⟨srcs, hmem, hs⟩ := ih
      exact ⟨srcs, by simp [graphAdd, he, hmem], hs⟩

theorem graphAdd_edge_mono (g : Graph) (s t s' t' : RNode) (h : graphEdge g s t) :
    graphEdge (graphAdd g s' t') s t := by
  induction g with
  | nil => exact absurd h (by simp [graphEdge])
  | cons e rest ih =>
    obtain ⟨t0, srcs0⟩ := e
    obtain ⟨srcs, hmem, hs⟩ := h
    rcases List.mem_cons.mp hmem with heq | hmem'
    · obtain ⟨h1, h2⟩ := Prod.mk.inj heq
      subst h1
      subst h2
      by_cases he : t = t'
      · refine ⟨srcs ++ [s'], ?_, by simp [hs]⟩
        simp only [graphAdd, if_pos he]
        exact List.mem_cons_self _ _
      · refine ⟨srcs, ?_, hs⟩
        simp only [graphAdd, if_neg he]
        exact List.mem_cons_self _ _
    · by_cases he : t0 = t'
      · exact ⟨srcs, by simp [graphAdd, if_pos he, hmem'], hs⟩
      · have := ih ⟨srcs, hmem', hs⟩
        obtain ⟨srcs2, hmem2, hs2⟩ := this
        exact ⟨srcs2, by simp [graphAdd, if_neg he, hmem2], hs2⟩

theorem graphMerge_edge (es : List REdge) : ∀ (g : Graph) (s t : RNode),
    ((some s, t) ∈ es ∨ graphEdge g s t) → graphEdge (graphMerge g es) s t := by
  induction es with
  | nil =>
    intro g s t h
    rcases h with h | h
    · exact absurd h (by simp)
    · exact h
  | cons e rest ih =>
    intro g s t h
    have hstep : graphMerge g (e :: rest) =
        graphMerge (match e.1 with | none => g | some s' => graphAdd g s' e.2) rest := rfl
    rw [hstep]
    rcases h with h | h
    · rcases List.mem_cons.mp h with heq | hmem
      · have h1 : e.1 = some s := (congrArg Prod.fst heq).symm
        have h2 : e.2 = t := (congrArg Prod.snd heq).symm
        apply ih
        right
        rw [h1, h2]
        exact graphAdd_edge g s t
      · exact ih _ s t (Or.inl hmem)
    · apply ih
      right
      cases he : e.1 with
      | none => exact h
      | some s' => exact graphAdd_edge_mono g s t s' e.2 h

/-- The per-source step of `tsAddEntry`'s fold. -/
def srcStep (t : RNode) (a : TS) (s : RNode) : TS :=
  let a1 := tsSeen a s
  { a1 with succ := fun x => if x = s then a1.succ x ++ [t] else a1.succ x }

/-- The predecessor-count bump of `tsAddEntry`. -/
def tsBump (ts : TS) (t : RNode) (k : Nat) : TS :=
  { ts with npred := fun x => if x = t then ts.npred x + k else ts.npred x }

theorem tsSeen_npred (ts : TS) (n : RNode) : (tsSeen ts n).npred = ts.npred := by
  unfold tsSeen
  split <;> rfl

theorem tsSeen_succ (ts : TS) (n : RNode) : (tsSeen ts n).succ = ts.succ := by
  unfold tsSeen
  split <;> rfl

theorem tsSeen_order_mem (ts : TS) (n x : RNode) :
    x ∈ (tsSeen ts n).order ↔ x ∈ ts.order ∨ x = n := by
  unfold tsSeen
  split
  · next h => simp only [iff_self_or]; rintro rfl; exact h
  · simp

theorem tsSeen_order_nodup (ts : TS) (n : RNode) (h : ts.order.Nodup) :
    (tsSeen ts n).order.Nodup := by
  unfold tsSeen
  split
  · exact h
  · next hn =>
    rw [List.nodup_append]
    exact ⟨h, List.nodup_singleton n, by simpa using hn⟩

theorem srcStep_npred (t : RNode) (a : TS) (s : RNode) :
    (srcStep t a s).npred = a.npred := by
  rw [show (srcStep t a s).npred = (tsSeen a s).npred from rfl, tsSeen_npred]

theorem srcStep_succ (t : RNode) (a : TS) (s x : RNode) :
    (srcStep t a s).succ x = if x = s then a.succ x ++ [t] else a.succ x := by
  have h : (srcStep t a s).succ x =
      if x = s then (tsSeen a s).succ x ++ [t] else (tsSeen a s).succ x := rfl
  rw [h, tsSeen_succ]

theorem srcStep_order_mem (t : RNode) (a : TS) (s x : RNode) :
    x ∈ (srcStep t a s).order ↔ x ∈ a.order ∨ x = s := by
  have h : (srcStep t a s).order = (tsSeen a s).order := rfl
  rw [h, tsSeen_order_mem]

theorem srcStep_order_nodup (t : RNode) (a : TS) (s : RNode) (h : a.order.Nodup) :
    (srcStep t a s).order.Nodup := by
  have he : (srcStep t a s).order = (tsSeen a s).order := rfl
  rw [he]
  exact (tsSeen_order_nodup a s h)

theorem srcFold_npred (t : RNode) (srcs : List RNode) (a : TS) :
    (srcs.foldl (srcStep t) a).npred = a.npred := by
  induction srcs generalizing a with
  | nil => rfl
  | cons s rest ih => rw [List.foldl_cons, ih, srcStep_npred]

theorem srcFold_succ (t : RNode) (srcs : List RNode) (a : TS) (x : RNode) :
    (srcs.foldl (srcStep t) a).succ x = a.succ x ++ List.replicate (srcs.count x) t := by
  induction srcs generalizing a with
  | nil => simp
  | cons s rest ih =>
    rw [List.foldl_cons, ih, srcStep_succ]
    by_cases hx : x = s
    · subst hx
      rw [if_pos rfl, List.count_cons_self, List.append_assoc, List.singleton_append,
        ← List.replicate_succ, List.replicate_succ']
    · rw [if_neg hx, List.count_cons_of_ne hx]

theorem srcFold_order_mem (t : RNode) (srcs : List RNode) (a : TS) (x : RNode) :
    x ∈ (srcs.foldl (srcStep t) a).order ↔ x ∈ a.order ∨ x ∈ srcs := by
  induction srcs generalizing a with
  | nil => simp
  | cons s rest ih =>
    rw [List.foldl_cons, ih, srcStep_order_mem]
    simp only [List.mem_cons]
    tauto

theorem srcFold_order_nodup (t : RNode) (srcs : List RNode) (a : TS) (h : a.order.Nodup) :
    (srcs.foldl (srcStep t) a).order.Nodup := by
  induction srcs generalizing a with
  | nil => exact h
  | cons s rest ih => exact ih _ (srcStep_order_nodup t a s h)

theorem tsAddEntry_eq (ts : TS) (t : RNode) (srcs : List RNode) :
    tsAddEntry ts t srcs = srcs.foldl (srcStep t) (tsBump (tsSeen ts t) t srcs.length) := rfl

theorem tsBump_npred (ts : TS) (t : RNode) (k : Nat) (x : RNode) :
    (tsBump ts t k).npred x = ts.npred x + (if x = t then (k : Int) else 0) := by
  unfold tsBump
  by_cases hx : x = t
  · simp [hx]
  · simp [hx]

theorem tsAddEntry_npred (ts : TS) (t : RNode) (srcs : List RNode) (x : RNode) :
    (tsAddEntry ts t srcs).npred x = ts.npred x + (if x = t then (srcs.length : Int) else 0) := by
  rw [tsAddEntry_eq, srcFold_npred, tsBump_npred]
  rw [show (tsSeen ts t).npred = ts.npred from tsSeen_npred ts t]

theorem tsAddEntry_succ (ts : TS) (t : RNode) (srcs : List RNode) (x : RNode) :
    (tsAddEntry ts t srcs).succ x = ts.succ x ++ List.replicate (srcs.count x) t := by
  rw [tsAddEntry_eq, srcFold_succ]
  rw [show (tsBump (tsSeen ts t) t srcs.length).succ = (tsSeen ts t).succ from rfl, tsSeen_succ]

theorem tsAddEntry_order_mem (ts : TS) (t : RNode) (srcs : List RNode) (x : RNode) :
    x ∈ (tsAddEntry ts t srcs).order ↔ x ∈ ts.order ∨ x = t ∨ x ∈ srcs := by
  rw [tsAddEntry_eq, srcFold_order_mem]
  rw [show (tsBump (tsSeen ts t) t srcs.length).order = (tsSeen ts t).order from rfl]
  rw [tsSeen_order_mem]
  tauto

theorem tsAddEntry_order_nodup (ts : TS) (t : RNode) (srcs : List RNode) (h : ts.order.Nodup) :
    (tsAddEntry ts t srcs).order.Nodup := by
  rw [tsAddEntry_eq]
  apply srcFold_order_nodup
  rw [show (tsBump (tsSeen ts t) t srcs.length).order = (tsSeen ts t).order from rfl]
  exact tsSeen_order_nodup ts t h

theorem edgeList_cons (e : RNode × List RNode) (E : Graph) :
    edgeList (e :: E) = e.2.map (fun s => (s, e.1)) ++ edgeList E := by
  simp [edgeList]

theorem entry_countP_tgt (e : RNode × List RNode) (x : RNode) :
    (e.2.map (fun s => (s, e.1))).countP (fun p => p.2 == x) =
      if x = e.1 then e.2.length else 0 := by
  rw [List.countP_map]
  by_cases hx : x = e.1
  · subst hx
    simp [Function.comp_def]
  · have : ∀ s : RNode, ((fun p : RNode × RNode => p.2 == x) ∘ (fun s => (s, e.1))) s = false := by
      intro s
      simp [Function.comp_def]
      exact fun h => hx h.symm
    rw [if_neg hx]
    induction e.2 with
    | nil => rfl
    | cons a l ih => rw [List.countP_cons, this a, ih]; rfl

theorem entry_countP_src_tgt (e : RNode × List RNode) (s0 x : RNode) :
    (e.2.map (fun s => (s, e.1))).countP (fun p => p.1 == s0 && p.2 == x) =
      if x = e.1 then e.2.count s0 else 0 := by
  rw [List.countP_map]
  by_cases hx : x = e.1
  · subst hx
    have heq : ((fun p : RNode × RNode => p.1 == s0 && p.2 == e.1) ∘ (fun s => (s, e.1))) =
        fun s => s == s0 := by
      funext s
      simp [Function.comp_def]
    rw [if_pos rfl, heq]
    rfl
  · have : ∀ s : RNode, ((fun p : RNode × RNode => p.1 == s0 && p.2 == x) ∘ (fun s => (s, e.1))) s = false := by
      intro s
      simp [Function.comp_def]
      exact fun _ h => hx h.symm
    rw [if_neg hx]
    induction e.2 with
    | nil => rfl
    | cons a l ih => rw [List.countP_cons, this a, ih]; rfl

theorem tsFold_npred (E : Graph) (ts : TS) (x : RNode) :
    (E.foldl (fun a e => tsAddEntry a e.1 e.2) ts).npred x =
      ts.npred x + ((edgeList E).countP (fun p => p.2 == x) : Int) := by
  induction E generalizing ts with
  | nil => simp [edgeList]
  | cons e E ih =>
    rw [List.foldl_cons, ih, tsAddEntry_npred, edgeList_cons, List.countP_append,
      entry_countP_tgt]
    push_cast
    ring

theorem tsFold_succ_count (E : Graph) (ts : TS) (s0 x : RNode) :
    ((E.foldl (fun a e => tsAddEntry a e.1 e.2) ts).succ s0).count x =
      (ts.succ s0).count x + (edgeList E).countP (fun p => p.1 == s0 && p.2 == x) := by
  induction E generalizing ts with
  | nil => simp [edgeList]
  | cons e E ih =>
    rw [List.foldl_cons, ih, tsAddEntry_succ, edgeList_cons, List.countP_append,
      entry_countP_src_tgt, List.count_append, List.count_replicate]
    by_cases hx : x = e.1
    · subst hx
      simp only [if_pos rfl, beq_self_eq_true, if_true]
      ring
    · rw [if_neg hx, if_neg (by simpa using Ne.symm hx)]
      ring

theorem tsFold_order_mem (E : Graph) (ts : TS) (x : RNode) :
    x ∈ (E.foldl (fun a e => tsAddEntry a e.1 e.2) ts).order ↔
      x ∈ ts.order ∨ ∃ e ∈ E, x = e.1 ∨ x ∈ e.2 := by
  induction E generalizing ts with
  | nil => simp
  | cons e E ih =>
    rw [List.foldl_cons, ih, tsAddEntry_order_mem]
    simp only [List.mem_cons]
    constructor
    · rintro ((h | h | h) | ⟨e', he', h⟩)
      · exact Or.inl h
      · exact Or.inr ⟨e, Or.inl rfl, Or.inl h⟩
      · exact Or.inr ⟨e, Or.inl rfl, Or.inr h⟩
      · exact Or.inr ⟨e', Or.inr he', h⟩
    · rintro (h | ⟨e', (rfl | he'), h⟩)
      · exact Or.inl (Or.inl h)
      · rcases h with h | h
        · exact Or.inl (Or.inr (Or.inl h))
        · exact Or.inl (Or.inr (Or.inr h))
      · exact Or.inr ⟨e', he', h⟩

theorem tsFold_order_nodup (E : Graph) (ts : TS) (h : ts.order.Nodup) :
    (E.foldl (fun a e => tsAddEntry a e.1 e.2) ts).order.Nodup := by
  induction E generalizing ts with
  | nil => exact h
  | cons e E ih => exact ih _ (tsAddEntry_order_nodup ts e.1 e.2 h)

theorem tsFold_succ_sub (E : Graph) (ts : TS)
    (h : ∀ s y, y ∈ ts.succ s → y ∈ ts.order) :
    ∀ s y, y ∈ (E.foldl (fun a e => tsAddEntry a e.1 e.2) ts).succ s →
      y ∈ (E.foldl (fun a e => tsAddEntry a e.1 e.2) ts).order := by
  induction E generalizing ts with
  | nil => exact h
  | cons e E ih =>
    rw [List.foldl_cons]
    apply ih
    intro s y hy
    rw [tsAddEntry_succ] at hy
    rw [tsAddEntry_order_mem]
    rcases List.mem_append.mp hy with hy | hy
    · exact Or.inl (h s y hy)
    · exact Or.inr (Or.inl (List.eq_of_mem_replicate hy))

theorem buildTS_npred (g : Graph) (x : RNode) :
    (buildTS g).npred x = ((edgeList g).countP (fun p => p.2 == x) : Int) := by
  unfold buildTS
  rw [tsFold_npred]
  simp

theorem buildTS_succ_count (g : Graph) (s0 x : RNode) :
    ((buildTS g).succ s0).count x = (edgeList g).countP (fun p => p.1 == s0 && p.2 == x) := by
  unfold buildTS
  rw [tsFold_succ_count]
  simp

theorem buildTS_order_mem (g : Graph) (x : RNode) :
    x ∈ (buildTS g).order ↔ ∃ e ∈ g, x = e.1 ∨ x ∈ e.2 := by
  unfold buildTS
  rw [tsFold_order_mem]
  simp

theorem buildTS_order_nodup (g : Graph) : (buildTS g).order.Nodup := by
  unfold buildTS
  exact tsFold_order_nodup g _ List.nodup_nil

theorem buildTS_succ_sub (g : Graph) :
    ∀ s y, y ∈ (buildTS g).succ s → y ∈ (buildTS g).order := by
  unfold buildTS
  exact tsFold_succ_sub g _ (by intro s y hy; exact absurd hy (List.not_mem_nil y))

theorem edgeList_mem_entry {g : Graph} {s t : RNode} (h : (s, t) ∈ edgeList g) :
    ∃ e ∈ g, t = e.1 ∧ s ∈ e.2 := by
  unfold edgeList at h
  rw [List.mem_flatten] at h
  obtain ⟨l, hl, hmem⟩ := h
  rcases List.mem_map.mp hl with ⟨e, he, rfl⟩
  rcases List.mem_map.mp hmem with ⟨s', hs', heq⟩
  obtain ⟨h1, h2⟩ := Prod.mk.inj heq
  exact ⟨e, he, h2.symm, h1 ▸ hs'⟩

theorem edgeList_mem_order {g : Graph} {s t : RNode} (h : (s, t) ∈ edgeList g) :
    s ∈ (buildTS g).order ∧ t ∈ (buildTS g).order := by
  obtain ⟨e, he, ht, hs⟩ := edgeList_mem_entry h
  constructor
  · exact (buildTS_order_mem g s).mpr ⟨e, he, Or.inr hs⟩
  · exact (buildTS_order_mem g t).mpr ⟨e, he, Or.inl ht⟩

theorem prefix_indexOf_lt {p l : List RNode} (hp : p <+: l) {a : RNode} (ha : a ∈ p) :
    l.indexOf a < p.length := by
  obtain ⟨t, rfl⟩ := hp
  rw [List.indexOf_append_of_mem ha]
  exact List.indexOf_lt_length.mpr ha

theorem prefix_indexOf_ge {p l : List RNode} (hp : p <+: l) {b : RNode} (hb : b ∉ p) :
    p.length ≤ l.indexOf b := by
  obtain ⟨t, rfl⟩ := hp
  rw [List.indexOf_append_of_not_mem hb]
  exact Nat.le_add_right _ _

theorem countP_split {α : Type} (l : List α) (p q r : α → Bool)
    (h : ∀ a ∈ l, r a = (p a || q a)) (hd : ∀ a ∈ l, ¬(p a = true ∧ q a = true)) :
    l.countP r = l.countP p + l.countP q := by
  induction l with
  | nil => rfl
  | cons a l ih =>
    rw [List.countP_cons, List.countP_cons, List.countP_cons,
      ih (fun x hx => h x (List.mem_cons_of_mem a hx)) (fun x hx => hd x (List.mem_cons_of_mem a hx)),
      h a (List.mem_cons_self a l)]
    cases hp : p a with
    | false =>
      cases hq : q a with
      | false => simp
      | true => simp; omega
    | true =>
      cases hq : q a with
      | false => simp; omega
      | true => exact absurd ⟨hp, hq⟩ (hd a (List.mem_cons_self a l))

theorem batch_count (el : List (RNode × RNode)) (sc : RNode → List RNode)
    (hsc : ∀ s t, (sc s).count t = el.countP (fun p => p.1 == s && p.2 == t))
    (ready : List RNode) (hnd : ready.Nodup) (x : RNode) :
    ((ready.map sc).flatten).count x =
      el.countP (fun p => decide (p.1 ∈ ready) && p.2 == x) := by
  induction ready with
  | nil => simp
  | cons s rest ih =>
    have hflat : ((s :: rest).map sc).flatten = sc s ++ (rest.map sc).flatten := by simp
    rw [hflat, List.count_append, hsc, ih (List.Nodup.of_cons hnd)]
    have hs : s ∉ rest := by
      have := List.nodup_cons.mp hnd
      exact this.1
    rw [countP_split el (fun p => p.1 == s && p.2 == x)
      (fun p => decide (p.1 ∈ rest) && p.2 == x)
      (fun p => decide (p.1 ∈ s :: rest) && p.2 == x) ?_ ?_]
    · intro a _
      by_cases h1 : a.1 = s <;> by_cases h2 : a.1 ∈ rest <;> simp [h1, h2]
    · intro a _
      rintro ⟨h1, h2⟩
      rw [Bool.and_eq_true] at h1 h2
      have ha1 : a.1 = s := beq_iff_eq.mp h1.1
      have hmem : a.1 ∈ rest := of_decide_eq_true h2.1
      exact hs (ha1 ▸ hmem)
  

theorem markOut_not_mem (np : RNode → Int) (b : List RNode) (x : RNode) (hx : x ∉ b) :
    markOut np b x = np x := by
  induction b generalizing np with
  | nil => rfl
  | cons n rest ih =>
    have hxn : x ≠ n := fun h => hx (h ▸ List.mem_cons_self n rest)
    have hxr : x ∉ rest := fun h => hx (List.mem_cons_of_mem n h)
    unfold markOut
    rw [List.foldl_cons]
    rw [show (List.foldl (fun f n => fun x => if x = n then -2 else f x)
      (fun x => if x = n then -2 else np x) rest) = markOut (fun x => if x = n then -2 else np x) rest from rfl]
    rw [ih _ hxr]
    simp [hxn]

theorem markOut_mem (np : RNode → Int) (b : List RNode) (x : RNode) (hx : x ∈ b) :
    markOut np b x = -2 := by
  induction b generalizing np with
  | nil => exact absurd hx (List.not_mem_nil x)
  | cons n rest ih =>
    unfold markOut
    rw [List.foldl_cons]
    rw [show (List.foldl (fun f n => fun x => if x = n then -2 else f x)
      (fun x => if x = n then -2 else np x) rest) = markOut (fun x => if x = n then -2 else np x) rest from rfl]
    by_cases hxr : x ∈ rest
    · exact ih _ hxr
    · have hxn : x = n := by
        rcases List.mem_cons.mp hx with h | h
        · exact h
        · exact absurd h hxr
      rw [markOut_not_mem _ _ _ hxr]
      simp [hxn]

/-- The loop invariant of `static_order`'s batch loop, at batch
boundaries: `acc` are the emitted-and-done nodes, `ready` the nodes handed
out next, `np` the current predecessor counts. -/
structure KInv (el : List (RNode × RNode)) (ord : List RNode) (np : RNode → Int)
    (ready acc : List RNode) : Prop where
  accNd : acc.Nodup
  readyNd : ready.Nodup
  disj : ∀ n ∈ ready, n ∉ acc
  readyOrd : ∀ n ∈ ready, n ∈ ord
  accOrd : ∀ n ∈ acc, n ∈ ord
  readyZero : ∀ t ∈ ready, np t = 0
  accNeg : ∀ n ∈ acc, np n < 0
  npEq : ∀ t, t ∉ acc →
    np t = ((el.countP (fun p => p.2 == t && !(decide (p.1 ∈ acc)))) : Int)

/-- The invariant of the `done` decrement fold inside one batch: `acc'`
are the nodes already handed out (including the current batch), `L` the
remaining decrement occurrences, `rd` the next ready list built so far. -/
structure DInv (el : List (RNode × RNode)) (ord : List RNode) (acc' : List RNode)
    (L : List RNode) (np : RNode → Int) (rd : List RNode) : Prop where
  rdNd : rd.Nodup
  rdNotAcc : ∀ n ∈ rd, n ∉ acc'
  rdOrd : ∀ n ∈ rd, n ∈ ord
  rdZero : ∀ t ∈ rd, np t = 0 ∧ L.count t = 0
  accNeg : ∀ n ∈ acc', np n < 0
  npEq : ∀ t, t ∉ acc' →
    np t = (L.count t : Int) + ((el.countP (fun p => p.2 == t && !(decide (p.1 ∈ acc')))) : Int)
  LOrd : ∀ n ∈ L, n ∈ ord

theorem decStep_fst (np : RNode → Int) (rd : List RNode) (u x : RNode) :
    (decStep (np, rd) u).1 x = if x = u then np u - 1 else np x := by
  show (if np u - 1 = 0 then ((fun x => if x = u then np u - 1 else np x), rd ++ [u])
    else ((fun x => if x = u then np u - 1 else np x), rd)).1 x = _
  split <;> rfl

theorem decStep_snd (np : RNode → Int) (rd : List RNode) (u : RNode) :
    (decStep (np, rd) u).2 = if np u - 1 = 0 then rd ++ [u] else rd := by
  show (if np u - 1 = 0 then ((fun x => if x = u then np u - 1 else np x), rd ++ [u])
    else ((fun x => if x = u then np u - 1 else np x), rd)).2 = _
  split <;> rfl

theorem dinv_step (el : List (RNode × RNode)) (ord : List RNode) (acc' : List RNode)
    (u : RNode) (L' : List RNode) (np : RNode → Int) (rd : List RNode)
    (h : DInv el ord acc' (u :: L') np rd) :
    DInv el ord acc' L' (decStep (np, rd) u).1 (decStep (np, rd) u).2 := by
  have huL : u ∈ u :: L' := List.mem_cons_self u L'
  have hLOrd' : ∀ n ∈ L', n ∈ ord := fun n hn => h.LOrd n (List.mem_cons_of_mem u hn)
  have hurd : u ∉ rd := by
    intro hu
    have := (h.rdZero u hu).2
    rw [List.count_cons_self] at this
    omega
  by_cases hu : u ∈ acc'
  · -- decrementing an already-done node: it stays negative, nothing is appended
    have hneg : np u < 0 := h.accNeg u hu
    have hne : ¬ (np u - 1 = 0) := by omega
    constructor
    · rw [decStep_snd, if_neg hne]; exact h.rdNd
    · rw [decStep_snd, if_neg hne]; exact h.rdNotAcc
    · rw [decStep_snd, if_neg hne]; exact h.rdOrd
    · rw [decStep_snd, if_neg hne]
      intro t ht
      have htu : t ≠ u := fun he => (h.rdNotAcc t ht) (he ▸ hu)
      rw [decStep_fst, if_neg htu]
      have hz := h.rdZero t ht
      refine ⟨hz.1, ?_⟩
      have := hz.2
      rwa [List.count_cons_of_ne htu] at this
    · intro n hn
      rw [decStep_fst]
      by_cases hnu : n = u
      · rw [if_pos hnu]
        omega
      · rw [if_neg hnu]
        exact h.accNeg n hn
    · intro t ht
      have htu : t ≠ u := fun he => ht (he ▸ hu)
      rw [decStep_fst, if_neg htu]
      have := h.npEq t ht
      rwa [List.count_cons_of_ne htu] at this
    · exact hLOrd'
  · -- decrementing a pending node
    have heq := h.npEq u hu
    rw [List.count_cons_self] at heq
    by_cases hz : np u - 1 = 0
    · -- the count reached zero: u is appended to the new ready list
      have hcls : (L'.count u : Int) +
          ((el.countP (fun p => p.2 == u && !(decide (p.1 ∈ acc')))) : Int) = 0 := by omega
      have hc1 : L'.count u = 0 := by omega
      have hc2 : el.countP (fun p => p.2 == u && !(decide (p.1 ∈ acc'))) = 0 := by omega
      constructor
      · rw [decStep_snd, if_pos hz, List.nodup_append]
        exact ⟨h.rdNd, List.nodup_singleton u, by simpa using fun hcon => hurd hcon⟩
      · rw [decStep_snd, if_pos hz]
        intro n hn
        rcases List.mem_append.mp hn with hn | hn
        · exact h.rdNotAcc n hn
        · rw [List.mem_singleton] at hn
          exact hn ▸ hu
      · rw [decStep_snd, if_pos hz]
        intro n hn
        rcases List.mem_append.mp hn with hn | hn
        · exact h.rdOrd n hn
        · rw [List.mem_singleton] at hn
          exact hn ▸ h.LOrd u huL
      · rw [decStep_snd, if_pos hz]
        intro t ht
        rcases List.mem_append.mp ht with ht | ht
        · have htu : t ≠ u := fun he => hurd (he ▸ ht)
          rw [decStep_fst, if_neg htu]
          have hzz := h.rdZero t ht
          refine ⟨hzz.1, ?_⟩
          have := hzz.2
          rwa [List.count_cons_of_ne htu] at this
        · rw [List.mem_singleton] at ht
          subst ht
          rw [decStep_fst, if_pos rfl]
          exact ⟨hz, hc1⟩
      · intro n hn
        have hnu : n ≠ u := fun he => hu (he ▸ hn)
        rw [decStep_fst, if_neg hnu]
        exact h.accNeg n hn
      · intro t ht
        rw [decStep_fst]
        by_cases htu : t = u
        · subst htu
          rw [if_pos rfl, hz, hc1, hc2]
          simp
        · rw [if_neg htu]
          have := h.npEq t ht
          rwa [List.count_cons_of_ne htu] at this
      · exact hLOrd'
    · -- still pending
      constructor
      · rw [decStep_snd, if_neg hz]; exact h.rdNd
      · rw [decStep_snd, if_neg hz]; exact h.rdNotAcc
      · rw [decStep_snd, if_neg hz]; exact h.rdOrd
      · rw [decStep_snd, if_neg hz]
        intro t ht
        have htu : t ≠ u := fun he => hurd (he ▸ ht)
        rw [decStep_fst, if_neg htu]
        have hzz := h.rdZero t ht
        refine ⟨hzz.1, ?_⟩
        have := hzz.2
        rwa [List.count_cons_of_ne htu] at this
      · intro n hn
        have hnu : n ≠ u := fun he => hu (he ▸ hn)
        rw [decStep_fst, if_neg hnu]
        exact h.accNeg n hn
      · intro t ht
        rw [decStep_fst]
        by_cases htu : t = u
        · subst htu
          rw [if_pos rfl, heq]
          push_cast
          ring
        · rw [if_neg htu]
          have := h.npEq t ht
          rwa [List.count_cons_of_ne htu] at this
      · exact hLOrd'

theorem dinv_fold (el : List (RNode × RNode)) (ord : List RNode) (acc' : List RNode) :
    ∀ (L : List RNode) (np : RNode → Int) (rd : List RNode),
      DInv el ord acc' L np rd →
      DInv el ord acc' [] (L.foldl decStep (np, rd)).1 (L.foldl decStep (np, rd)).2 := by
  intro L
  induction L with
  | nil => intro np rd h; exact h
  | cons u L' ih =>
    intro np rd h
    rw [List.foldl_cons]
    have hstep := dinv_step el ord acc' u L' np rd h
    have := ih (decStep (np, rd) u).1 (decStep (np, rd) u).2 hstep
    simpa using this

theorem kinv_batch (el : List (RNode × RNode)) (ord : List RNode) (sc : RNode → List RNode)
    (hsc : ∀ s t, (sc s).count t = el.countP (fun p => p.1 == s && p.2 == t))
    (hsub : ∀ s, ∀ y ∈ sc s, y ∈ ord)
    (np : RNode → Int) (ready acc : List RNode) (h : KInv el ord np ready acc) :
    KInv el ord (((ready.map sc).flatten).foldl decStep (markOut np ready, [])).1
      (((ready.map sc).flatten).foldl decStep (markOut np ready, [])).2 (acc ++ ready) := by
  have hstart : DInv el ord (acc ++ ready) ((ready.map sc).flatten) (markOut np ready) [] := by
    constructor
    · exact List.nodup_nil
    · intro n hn; exact absurd hn (List.not_mem_nil n)
    · intro n hn; exact absurd hn (List.not_mem_nil n)
    · intro t ht; exact absurd ht (List.not_mem_nil t)
    · intro n hn
      by_cases hr : n ∈ ready
      · rw [markOut_mem _ _ _ hr]; omega
      · have hacc : n ∈ acc := by
          rcases List.mem_append.mp hn with ha | ha
          · exact ha
          · exact absurd ha hr
        rw [markOut_not_mem _ _ _ hr]
        exact h.accNeg n hacc
    · intro t ht
      have htr : t ∉ ready := fun hr => ht (List.mem_append_right acc hr)
      have hta : t ∉ acc := fun ha => ht (List.mem_append_left ready ha)
      rw [markOut_not_mem _ _ _ htr, h.npEq t hta]
      have hkey : el.countP (fun p => p.2 == t && !(decide (p.1 ∈ acc))) =
          el.countP (fun p => decide (p.1 ∈ ready) && p.2 == t) +
          el.countP (fun p => p.2 == t && !(decide (p.1 ∈ acc ++ ready))) := by
        apply countP_split
        · intro a _
          by_cases h1 : a.1 ∈ acc <;> by_cases h2 : a.1 ∈ ready
          · exact absurd h1 (h.disj a.1 h2)
          · simp [h1, h2]
          · simp [h1, h2]
          · simp [h1, h2]
        · intro a _
          rintro ⟨h1, h2⟩
          rw [Bool.and_eq_true] at h1 h2
          have hr : a.1 ∈ ready := of_decide_eq_true h1.1
          have : ¬ (a.1 ∈ acc ++ ready) := by
            have := h2.2
            simpa using this
          exact this (List.mem_append_right acc hr)
      rw [hkey, batch_count el sc hsc ready h.readyNd t]
      push_cast
      ring
    · intro n hn
      rw [List.mem_flatten] at hn
      obtain ⟨l, hl, hnl⟩ := hn
      rcases List.mem_map.mp hl with ⟨s, _, rfl⟩
      exact hsub s n hnl
  have hd := dinv_fold el ord (acc ++ ready) ((ready.map sc).flatten) (markOut np ready) [] hstart
  constructor
  · rw [List.nodup_append]
    refine ⟨h.accNd, h.readyNd, ?_⟩
    intro a ha hb
    exact h.disj a hb ha
  · exact hd.rdNd
  · exact hd.rdNotAcc
  · exact hd.rdOrd
  · intro n hn
    rcases List.mem_append.mp hn with hn | hn
    · exact h.accOrd n hn
    · exact h.readyOrd n hn
  · intro t ht
    exact (hd.rdZero t ht).1
  · exact hd.accNeg
  · intro t ht
    have := hd.npEq t ht
    simpa using this

theorem kinv_ready_src (el : List (RNode × RNode)) (ord : List RNode) (np : RNode → Int)
    (ready acc : List RNode) (h : KInv el ord np ready acc)
    (t : RNode) (ht : t ∈ ready) (s : RNode) (hst : (s, t) ∈ el) : s ∈ acc := by
  have h0 := h.readyZero t ht
  have hne := h.npEq t (h.disj t ht)
  rw [h0] at hne
  have hz : el.countP (fun p => p.2 == t && !(decide (p.1 ∈ acc))) = 0 := by
    exact_mod_cast hne.symm
  rw [List.countP_eq_zero] at hz
  have := hz (s, t) hst
  simpa using this

theorem kahnRun_spec (el : List (RNode × RNode)) (ord : List RNode) (sc : RNode → List RNode)
    (hsc : ∀ s t, (sc s).count t = el.countP (fun p => p.1 == s && p.2 == t))
    (hsub : ∀ s, ∀ y ∈ sc s, y ∈ ord) :
    ∀ (fuel : Nat) (np : RNode → Int) (ready acc : List RNode), KInv el ord np ready acc →
      (kahnRun sc fuel np ready acc).Nodup ∧
      acc <+: kahnRun sc fuel np ready acc ∧
      (∀ n ∈ kahnRun sc fuel np ready acc, n ∈ ord ∨ n ∈ acc) ∧
      (∀ s t, (s, t) ∈ el → t ∈ kahnRun sc fuel np ready acc → t ∉ acc →
        s ∈ acc ∨ (s ∈ kahnRun sc fuel np ready acc ∧
          (kahnRun sc fuel np ready acc).indexOf s < (kahnRun sc fuel np ready acc).indexOf t)) := by
  intro fuel
  induction fuel with
  | zero =>
    intro np ready acc h
    refine ⟨h.accNd, List.prefix_refl acc, fun n hn => Or.inr hn, ?_⟩
    intro s t _ htres htacc
    exact absurd htres htacc
  | succ f ih =>
    intro np ready acc h
    cases hr : ready with
    | nil =>
      rw [show kahnRun sc (f+1) np [] acc = acc from rfl]
      refine ⟨h.accNd, List.prefix_refl acc, fun n hn => Or.inr hn, ?_⟩
      intro s t _ htres htacc
      exact absurd htres htacc
    | cons r rs =>
      subst hr
      rw [show kahnRun sc (f+1) np (r :: rs) acc =
        kahnRun sc f ((((r :: rs).map sc).flatten).foldl decStep (markOut np (r :: rs), [])).1
          ((((r :: rs).map sc).flatten).foldl decStep (markOut np (r :: rs), [])).2
          (acc ++ (r :: rs)) from rfl]
      have hk2 := kinv_batch el ord sc hsc hsub np (r :: rs) acc h
      obtain ⟨ihNd, ihPre, ihMem, ihPrec⟩ := ih _ _ _ hk2
      refine ⟨ihNd, ?_, ?_, ?_⟩
      · exact List.IsPrefix.trans (List.prefix_append acc (r :: rs)) ihPre
      · intro n hn
        rcases ihMem n hn with hn2 | hn2
        · exact Or.inl hn2
        · rcases List.mem_append.mp hn2 with hn3 | hn3
          · exact Or.inr hn3
          · exact Or.inl (h.readyOrd n hn3)
      · intro s t hedge htres htacc
        by_cases htr : t ∈ r :: rs
        · exact Or.inl (kinv_ready_src el ord np (r :: rs) acc h t htr s hedge)
        · have htacc2 : t ∉ acc ++ (r :: rs) := by
            intro hmem
            rcases List.mem_append.mp hmem with hmem | hmem
            · exact htacc hmem
            · exact htr hmem
          rcases ihPrec s t hedge htres htacc2 with hs | hs
          · rcases List.mem_append.mp hs with hs2 | hs2
            · exact Or.inl hs2
            · refine Or.inr ⟨ihPre.subset hs, ?_⟩
              have hlt := prefix_indexOf_lt ihPre hs
              have hge := prefix_indexOf_ge ihPre htacc2
              omega
          · exact Or.inr hs

theorem staticOrder_ok (g : Graph) (res : List RNode) (h : staticOrder g = .ok res) :
    res.Nodup ∧ (∀ n, n ∈ res ↔ n ∈ (buildTS g).order) ∧
    (∀ s t, (s, t) ∈ edgeList g → t ∈ res →
      s ∈ res ∧ res.indexOf s < res.indexOf t) := by
  have hinit : KInv (edgeList g) (buildTS g).order (buildTS g).npred
      ((buildTS g).order.filter (fun n => (buildTS g).npred n == 0)) [] := by
    constructor
    · exact List.nodup_nil
    · exact List.Nodup.filter _ (buildTS_order_nodup g)
    · intro n _; exact List.not_mem_nil n
    · intro n hn; exact (List.mem_filter.mp hn).1
    · intro n hn; exact absurd hn (List.not_mem_nil n)
    · intro t ht
      have := (List.mem_filter.mp ht).2
      exact beq_iff_eq.mp this
    · intro n hn; exact absurd hn (List.not_mem_nil n)
    · intro t _
      rw [buildTS_npred]
      congr 1
      apply List.countP_congr
      intro p _
      simp
  have hspec := kahnRun_spec (edgeList g) (buildTS g).order (buildTS g).succ
    (fun s t => buildTS_succ_count g s t) (fun s y hy => buildTS_succ_sub g s y hy)
    ((buildTS g).order.length + 1) (buildTS g).npred
    ((buildTS g).order.filter (fun n => (buildTS g).npred n == 0)) [] hinit
  obtain ⟨hnd, _, hmem, hprec⟩ := hspec
  have hrun : staticOrder g =
      (if (kahnRun (buildTS g).succ ((buildTS g).order.length + 1) (buildTS g).npred
        ((buildTS g).order.filter (fun n => (buildTS g).npred n == 0)) []).length =
        (buildTS g).order.length
      then Except.ok (kahnRun (buildTS g).succ ((buildTS g).order.length + 1) (buildTS g).npred
        ((buildTS g).order.filter (fun n => (buildTS g).npred n == 0)) [])
      else Except.error ChainErr.cycle) := rfl
  rw [hrun] at h
  by_cases hlen : (kahnRun (buildTS g).succ ((buildTS g).order.length + 1) (buildTS g).npred
      ((buildTS g).order.filter (fun n => (buildTS g).npred n == 0)) []).length =
      (buildTS g).order.length
  · rw [if_pos hlen] at h
    have hres : res = kahnRun (buildTS g).succ ((buildTS g).order.length + 1) (buildTS g).npred
        ((buildTS g).order.filter (fun n => (buildTS g).npred n == 0)) [] :=
      (Except.ok.inj h).symm
    rw [← hres] at hnd hmem hprec hlen
    have hsubset : ∀ n ∈ res, n ∈ (buildTS g).order := by
      intro n hn
      rcases hmem n hn with h1 | h1
      · exact h1
      · exact absurd h1 (List.not_mem_nil n)
    have hperm : res.Perm (buildTS g).order :=
      List.Subperm.perm_of_length_le
        (List.subperm_of_subset hnd hsubset) (le_of_eq hlen.symm)
    refine ⟨hnd, fun n => hperm.mem_iff, ?_⟩
    intro s t hst htres
    rcases hprec s t hst htres (List.not_mem_nil t) with hcon | hgood
    · exact absurd hcon (List.not_mem_nil s)
    · exact hgood
  · rw [if_neg hlen] at h
    exact absurd h (by simp)

theorem popNext_none (ord : List RNode) : ∀ g, popNext ord g = none →
    ord.filter nonCtrl = [] := by
  induction ord with
  | nil => intro g _; rfl
  | cons x rest ih =>
    intro g h
    cases x with
    | ctrl c =>
      have hrec : popNext (RNode.ctrl c :: rest) g = popNext rest (graphDrop g (RNode.ctrl c)) := rfl
      rw [hrec] at h
      have := ih _ h
      simpa [nonCtrl] using this
    | hook c => exact absurd h (by simp [popNext])
    | reactor r => exact absurd h (by simp [popNext])

theorem popNext_some (ord : List RNode) : ∀ g n ch, popNext ord g = some (n, ch) →
    ∃ rest g2, ch = ⟨g2, some rest⟩ ∧ nonCtrl n = true ∧
      ord.filter nonCtrl = n :: rest.filter nonCtrl := by
  induction ord with
  | nil => intro g n ch h; exact absurd h (by simp [popNext])
  | cons x rest ih =>
    intro g n ch h
    cases x with
    | ctrl c =>
      have hrec : popNext (RNode.ctrl c :: rest) g = popNext rest (graphDrop g (RNode.ctrl c)) := rfl
      rw [hrec] at h
      obtain ⟨rest2, g2, hch, hnc, hf⟩ := ih _ n ch h
      exact ⟨rest2, g2, hch, hnc, by simpa [nonCtrl] using hf⟩
    | hook c =>
      have hstep : popNext (RNode.hook c :: rest) g =
          some (RNode.hook c, ⟨graphDrop g (RNode.hook c), some rest⟩) := rfl
      rw [hstep] at h
      obtain ⟨h1, h2⟩ := Prod.mk.inj (Option.some.inj h)
      exact ⟨rest, graphDrop g (RNode.hook c), h2.symm, by rw [← h1]; rfl,
        by rw [← h1]; simp [nonCtrl]⟩
    | reactor r =>
      have hstep : popNext (RNode.reactor r :: rest) g =
          some (RNode.reactor r, ⟨graphDrop g (RNode.reactor r), some rest⟩) := rfl
      rw [hstep] at h
      obtain ⟨h1, h2⟩ := Prod.mk.inj (Option.some.inj h)
      exact ⟨rest, graphDrop g (RNode.reactor r), h2.symm, by rw [← h1]; rfl,
        by rw [← h1]; simp [nonCtrl]⟩

theorem drainLoop_pure_cached (env : Nat → List RNode) (act : Act) (hpure : ∀ r, act r = []) :
    ∀ (fuel : Nat) (ord : List RNode) (g : Graph) (log res : List RNode),
      drainLoop env act fuel ⟨g, some ord⟩ log = .ok res →
      res = log ++ ord.filter nonCtrl := by
  intro fuel
  induction fuel with
  | zero => intro ord g log res h; exact absurd h (by simp [drainLoop])
  | succ f ih =>
    intro ord g log res h
    have hchain : chainNext ⟨g, some ord⟩ = .ok (popNext ord g) := rfl
    cases hpop : popNext ord g with
    | none =>
      simp only [drainLoop, hchain, hpop] at h
      rw [popNext_none ord g hpop]
      simpa using h.symm
    | some p =>
      obtain ⟨n, ch⟩ := p
      obtain ⟨rest, g2, hch, hnc, hf⟩ := popNext_some ord g n ch hpop
      subst hch
      simp only [drainLoop, hchain, hpop] at h
      cases n with
      | ctrl c => exact absurd hnc (by simp [nonCtrl])
      | hook c =>
        have h2 : drainLoop env act f ⟨g2, some rest⟩ (log ++ [RNode.hook c]) = Except.ok res := h
        have := ih rest g2 (log ++ [RNode.hook c]) res h2
        rw [this, hf]
        simp
      | reactor r =>
        have h2 : (match applyActs env f (act r) (⟨g2, some rest⟩ : Chain) with
          | none => Except.error ChainErr.fuel
          | some ch2 => drainLoop env act f ch2 (log ++ [RNode.reactor r])) = Except.ok res := h
        rw [hpure r] at h2
        have happ : applyActs env f ([] : List (Nat × Origin)) (⟨g2, some rest⟩ : Chain) =
            some ⟨g2, some rest⟩ := rfl
        rw [happ] at h2
        have := ih rest g2 (log ++ [RNode.reactor r]) res h2
        rw [this, hf]
        simp

theorem drainLoop_pure_uncached (env : Nat → List RNode) (act : Act) (hpure : ∀ r, act r = [])
    (fuel : Nat) (g : Graph) (log res : List RNode)
    (h : drainLoop env act fuel ⟨g, none⟩ log = .ok res) :
    ∃ ord, staticOrder g = .ok ord ∧ res = log ++ ord.filter nonCtrl := by
  cases fuel with
  | zero => exact absurd h (by simp [drainLoop])
  | succ f =>
    cases hso : staticOrder g with
    | error e =>
      have hchain : chainNext ⟨g, none⟩ = .error e := by
        show (match staticOrder g with
          | .error e => Except.error e
          | .ok order => Except.ok (popNext order g)) = Except.error e
        rw [hso]
      simp only [drainLoop, hchain] at h
      exact absurd h (by simp)
    | ok ord =>
      refine ⟨ord, rfl, ?_⟩
      have hchain : chainNext ⟨g, none⟩ = .ok (popNext ord g) := by
        show (match staticOrder g with
          | .error e => Except.error e
          | .ok order => Except.ok (popNext order g)) = Except.ok (popNext ord g)
        rw [hso]
      cases hpop : popNext ord g with
      | none =>
        simp only [drainLoop, hchain, hpop] at h
        rw [popNext_none ord g hpop]
        simpa using h.symm
      | some p =>
        obtain ⟨n, ch⟩ := p
        obtain ⟨rest, g2, hch, hnc, hf⟩ := popNext_some ord g n ch hpop
        subst hch
        simp only [drainLoop, hchain, hpop] at h
        cases n with
        | ctrl c => exact absurd hnc (by simp [nonCtrl])
        | hook c =>
          have h2 : drainLoop env act f ⟨g2, some rest⟩ (log ++ [RNode.hook c]) = Except.ok res := h
          have := drainLoop_pure_cached env act hpure f rest g2 (log ++ [RNode.hook c]) res h2
          rw [this, hf]
          simp
        | reactor r =>
          have h2 : (match applyActs env f (act r) (⟨g2, some rest⟩ : Chain) with
            | none => Except.error ChainErr.fuel
            | some ch2 => drainLoop env act f ch2 (log ++ [RNode.reactor r])) = Except.ok res := h
          rw [hpure r] at h2
          have happ : applyActs env f ([] : List (Nat × Origin)) (⟨g2, some rest⟩ : Chain) =
              some ⟨g2, some rest⟩ := rfl
          rw [happ] at h2
          have := drainLoop_pure_cached env act hpure f rest g2 (log ++ [RNode.reactor r]) res h2
          rw [this, hf]
          simp

theorem triggerTop_pure (env : Nat → List RNode) (act : Act) (c : Nat) (o : Origin)
    (fuel : Nat) (res : List RNode) (hpure : ∀ r, act r = [])
    (h : triggerTop env act c o fuel = .ok res) :
    ∃ es ord, resolveEdges env fuel none (RNode.ctrl c) o = some es ∧
      staticOrder (graphMerge [] es) = .ok ord ∧ res = ord.filter nonCtrl := by
  cases hres : resolveEdges env fuel none (RNode.ctrl c) o with
  | none =>
    have : triggerTop env act c o fuel = .error ChainErr.fuel := by
      unfold triggerTop updateChain
      rw [hres]
    rw [this] at h
    exact absurd h (by simp)
  | some es =>
    have hstep : triggerTop env act c o fuel = drainLoop env act fuel ⟨graphMerge [] es, none⟩ [] := by
      unfold triggerTop updateChain
      rw [hres]
    rw [hstep] at h
    obtain ⟨ord, hso, hres2⟩ := drainLoop_pure_uncached env act hpure fuel _ [] res h
    exact ⟨es, ord, rfl, hso, by simpa using hres2⟩

/-- C3 amended: in a burst not extended by re-entrant triggers (all invoked
reactors perform no trigger calls), every node — hook or reactor — is
invoked at most once, no matter how many paths lead to it: the drained log
is the controller-free filtering of one duplicate-free topological order. -/
theorem c3_at_most_once_without_reentrancy (env : Nat → List RNode) (act : Act)
    (c : Nat) (o : Origin) (fuel : Nat) (log : List RNode)
    (hpure : ∀ r, act r = []) (hrun : triggerTop env act c o fuel = .ok log) :
    log.Nodup := by
  obtain ⟨es, ord, _, hso, hres⟩ := triggerTop_pure env act c o fuel log hpure hrun
  obtain ⟨hnd, _, _⟩ := staticOrder_ok _ ord hso
  rw [hres]
  exact List.Nodup.filter _ hnd

/-- The declarative diamond `A→B, A→C, B→D, C→D` with a reactor on `D`. -/
def envDiamond : Nat → List RNode
  | 0 => [.ctrl 1, .ctrl 2]
  | 1 => [.ctrl 3]
  | 2 => [.ctrl 3]
  | 3 => [.reactor 0]
  | _ => []

theorem c3_at_most_once_without_reentrancy_witness :
    actNil 7 = [] ∧
    triggerTop envDiamond actNil 0 .external 40 =
      .ok [RNode.hook 0, RNode.hook 1, RNode.hook 2, RNode.hook 3, RNode.reactor 0] ∧
    List.Nodup [RNode.hook 0, RNode.hook 1, RNode.hook 2, RNode.hook 3, RNode.reactor 0] :=
  ⟨rfl, rfl,
    c3_at_most_once_without_reentrancy envDiamond actNil 0 .external 40
      [RNode.hook 0, RNode.hook 1, RNode.hook 2, RNode.hook 3, RNode.reactor 0]
      (fun _ => rfl) rfl⟩

theorem resolveListF_mem {f : RNode → Option (List REdge)} :
    ∀ {l : List RNode} {r : List REdge}, resolveListF f l = some r →
      ∀ n ∈ l, ∃ rn, f n = some rn ∧ rn ⊆ r := by
  intro l
  induction l with
  | nil => intro r _ n hn; exact absurd hn (List.not_mem_nil n)
  | cons m ms ih =>
    intro r h n hn
    have hshape : resolveListF f (m :: ms) =
        (match f m, resolveListF f ms with
          | some x, some y => some (x ++ y)
          | _, _ => none) := rfl
    rw [hshape] at h
    cases hfm : f m with
    | none => rw [hfm] at h; exact absurd h (by simp)
    | some x =>
      cases hrest : resolveListF f ms with
      | none => rw [hfm, hrest] at h; exact absurd h (by simp)
      | some y =>
        rw [hfm, hrest] at h
        have hr : r = x ++ y := (Option.some.inj h).symm
        subst hr
        rcases List.mem_cons.mp hn with rfl | hn2
        · exact ⟨x, hfm, List.subset_append_left x y⟩
        · obtain ⟨rn, hrn, hsub⟩ := ih hrest n hn2
          exact ⟨rn, hrn, hsub.trans (List.subset_append_right x y)⟩

theorem resolveEdges_head {env : Nat → List RNode} {fuel : Nat} {src : Option RNode}
    {tgt : RNode} {o : Origin} {es : List REdge}
    (h : resolveEdges env fuel src tgt o = some es) : (src, tgt) ∈ es := by
  cases fuel with
  | zero => exact absurd h (by simp [resolveEdges])
  | succ f =>
    cases tgt with
    | ctrl c =>
      cases hres : resolveListF (fun n => resolveEdges env f (hookSource c o).2 n Origin.external) (env c) with
      | none =>
        have : resolveEdges env (f+1) src (RNode.ctrl c) o = none := by
          show (match resolveListF (fun n => resolveEdges env f (hookSource c o).2 n Origin.external) (env c) with
            | none => none
            | some rest => some ((src, RNode.ctrl c) :: ((hookSource c o).1 ++ rest))) = none
          rw [hres]
        rw [this] at h
        exact absurd h (by simp)
      | some rest =>
        have : resolveEdges env (f+1) src (RNode.ctrl c) o =
            some ((src, RNode.ctrl c) :: ((hookSource c o).1 ++ rest)) := by
          show (match resolveListF (fun n => resolveEdges env f (hookSource c o).2 n Origin.external) (env c) with
            | none => none
            | some rest => some ((src, RNode.ctrl c) :: ((hookSource c o).1 ++ rest))) = _
          rw [hres]
        rw [this] at h
        rw [← Option.some.inj h]
        exact List.mem_cons_self _ _
    | hook c =>
      have : es = [(src, RNode.hook c)] := (Option.some.inj h).symm
      rw [this]
      exact List.mem_singleton.mpr rfl
    | reactor r =>
      have : es = [(src, RNode.reactor r)] := (Option.some.inj h).symm
      rw [this]
      exact List.mem_singleton.mpr rfl

theorem resolveEdges_ctrl_shape {env : Nat → List RNode} {fuel : Nat} {src : Option RNode}
    {c : Nat} {o : Origin} {es : List REdge}
    (h : resolveEdges env fuel src (RNode.ctrl c) o = some es) :
    ∃ f rest, fuel = f + 1 ∧
      resolveListF (fun n => resolveEdges env f (hookSource c o).2 n Origin.external) (env c) = some rest ∧
      es = (src, RNode.ctrl c) :: ((hookSource c o).1 ++ rest) := by
  cases fuel with
  | zero => exact absurd h (by simp [resolveEdges])
  | succ f =>
    cases hres : resolveListF (fun n => resolveEdges env f (hookSource c o).2 n Origin.external) (env c) with
    | none =>
      have : resolveEdges env (f+1) src (RNode.ctrl c) o = none := by
        show (match resolveListF (fun n => resolveEdges env f (hookSource c o).2 n Origin.external) (env c) with
          | none => none
          | some rest => some ((src, RNode.ctrl c) :: ((hookSource c o).1 ++ rest))) = none
        rw [hres]
      rw [this] at h
      exact absurd h (by simp)
    | some rest =>
      have heq : resolveEdges env (f+1) src (RNode.ctrl c) o =
          some ((src, RNode.ctrl c) :: ((hookSource c o).1 ++ rest)) := by
        show (match resolveListF (fun n => resolveEdges env f (hookSource c o).2 n Origin.external) (env c) with
          | none => none
          | some rest => some ((src, RNode.ctrl c) :: ((hookSource c o).1 ++ rest))) = _
        rw [hres]
      rw [heq] at h
      exact ⟨f, rest, rfl, hres, (Option.some.inj h).symm⟩

theorem resolveEdges_hook_edge {env : Nat → List RNode} {fuel : Nat} {src : Option RNode}
    {c : Nat} {es : List REdge}
    (h : resolveEdges env fuel src (RNode.ctrl c) .external = some es) :
    (some (RNode.ctrl c), RNode.hook c) ∈ es := by
  obtain ⟨f, rest, _, _, hes⟩ := resolveEdges_ctrl_shape h
  rw [hes]
  exact List.mem_cons_of_mem _ (List.mem_append_left _ (List.mem_singleton.mpr rfl))

/-- A directed path along the resolved edges. -/
inductive EsPath (es : List REdge) : RNode → RNode → Prop
  | single {s t : RNode} : (some s, t) ∈ es → EsPath es s t
  | cons {s m t : RNode} : (some s, m) ∈ es → EsPath es m t → EsPath es s t

theorem downstream_path {env : Nat → List RNode} {a b : Nat} (hd : Downstream env a b) :
    ∀ {fuel : Nat} {srcN : RNode} {es es0 : List REdge},
      resolveListF (fun n => resolveEdges env fuel srcN n Origin.external) (env a) = some es →
      es ⊆ es0 →
      EsPath es0 srcN (RNode.hook b) ∧
      ∃ f2 es2, resolveListF (fun n => resolveEdges env f2 (RNode.hook b) n Origin.external) (env b) = some es2 ∧
        es2 ⊆ es0 := by
  induction hd with
  | direct hab =>
    intro fuel srcN es es0 hlist hsub
    next a2 b2 =>
    obtain ⟨esb, hesb, hsubb⟩ := resolveListF_mem hlist (RNode.ctrl b2) hab
    have hsubb0 : esb ⊆ es0 := hsubb.trans hsub
    obtain ⟨f2, rest2, _, hrest2, hes2⟩ := resolveEdges_ctrl_shape hesb
    constructor
    · exact EsPath.cons (hsubb0 (resolveEdges_head hesb))
        (EsPath.single (hsubb0 (resolveEdges_hook_edge hesb)))
    · refine ⟨f2, rest2, hrest2, ?_⟩
      intro x hx
      apply hsubb0
      rw [hes2]
      exact List.mem_cons_of_mem _ (List.mem_append_right _ hx)
  | step ham hmb ih =>
    intro fuel srcN es es0 hlist hsub
    next a2 m2 b2 =>
    obtain ⟨esm, hesm, hsubm⟩ := resolveListF_mem hlist (RNode.ctrl m2) ham
    have hsubm0 : esm ⊆ es0 := hsubm.trans hsub
    obtain ⟨f2, rest2, _, hrest2, hes2⟩ := resolveEdges_ctrl_shape hesm
    have hrestsub : rest2 ⊆ es0 := by
      intro x hx
      apply hsubm0
      rw [hes2]
      exact List.mem_cons_of_mem _ (List.mem_append_right _ hx)
    obtain ⟨hpath, hchunk⟩ := ih hrest2 hrestsub
    constructor
    · exact EsPath.cons (hsubm0 (resolveEdges_head hesm))
        (EsPath.cons (hsubm0 (resolveEdges_hook_edge hesm)) hpath)
    · exact hchunk

theorem esEdge_mem_ord {es : List REdge} {ord : List RNode}
    (hso : staticOrder (graphMerge [] es) = .ok ord)
    {s t : RNode} (h : (some s, t) ∈ es) :
    s ∈ ord ∧ t ∈ ord ∧ ord.indexOf s < ord.indexOf t := by
  obtain ⟨_, hmem, hprec⟩ := staticOrder_ok _ ord hso
  have hedge : (s, t) ∈ edgeList (graphMerge [] es) :=
    edgeList_of_graphEdge (graphMerge_edge es [] s t (Or.inl h))
  have hords := edgeList_mem_order hedge
  have ht : t ∈ ord := (hmem t).mpr hords.2
  obtain ⟨hs, hlt⟩ := hprec s t hedge ht
  exact ⟨hs, ht, hlt⟩

theorem esPath_lt {es : List REdge} {ord : List RNode}
    (hso : staticOrder (graphMerge [] es) = .ok ord) :
    ∀ {x y : RNode}, EsPath es x y →
      x ∈ ord ∧ y ∈ ord ∧ ord.indexOf x < ord.indexOf y := by
  intro x y hp
  induction hp with
  | single h => exact esEdge_mem_ord hso h
  | cons h _ ih =>
    obtain ⟨hx, hm, hlt1⟩ := esEdge_mem_ord hso h
    obtain ⟨_, hy, hlt2⟩ := ih
    exact ⟨hx, hy, hlt1.trans hlt2⟩

theorem filter_indexOf_mono {l : List RNode} (hnd : l.Nodup) (p : RNode → Bool) :
    ∀ {a b : RNode}, a ∈ l → b ∈ l → p a = true → p b = true →
      l.indexOf a < l.indexOf b →
      (l.filter p).indexOf a < (l.filter p).indexOf b := by
  induction l with
  | nil => intro a b ha _ _ _ _; exact absurd ha (List.not_mem_nil a)
  | cons x xs ih =>
    intro a b ha hb hpa hpb hab
    have hnx := List.nodup_cons.mp hnd
    by_cases hxa : x = a
    · subst hxa
      have hba : b ≠ x := by
        intro he
        subst he
        exact lt_irrefl _ hab
      have hbxs : b ∈ xs := by
        rcases List.mem_cons.mp hb with he | h2
        · exact absurd he hba
        · exact h2
      have hfilter : (x :: xs).filter p = x :: xs.filter p := by
        rw [List.filter_cons_of_pos hpa]
      rw [hfilter, List.indexOf_cons_self]
      have hbf : b ∈ xs.filter p := List.mem_filter.mpr ⟨hbxs, hpb⟩
      have : (x :: xs.filter p).indexOf b = (xs.filter p).indexOf b + 1 := by
        rw [List.indexOf_cons_ne _ (by exact fun he => hba he.symm)]
      omega
    · by_cases hxb : x = b
      · subst hxb
        rw [List.indexOf_cons_self] at hab
        omega
      · have haxs : a ∈ xs := by
          rcases List.mem_cons.mp ha with he | h2
          · exact absurd he.symm hxa
          · exact h2
        have hbxs : b ∈ xs := by
          rcases List.mem_cons.mp hb with he | h2
          · exact absurd he.symm hxb
          · exact h2
        rw [List.indexOf_cons_ne _ hxa, List.indexOf_cons_ne _ hxb] at hab
        have hab2 : xs.indexOf a < xs.indexOf b := by omega
        have hrec := ih hnx.2 haxs hbxs hpa hpb hab2
        by_cases hpx : p x = true
        · rw [List.filter_cons_of_pos hpx, List.indexOf_cons_ne _ hxa,
            List.indexOf_cons_ne _ hxb]
          omega
        · rw [List.filter_cons_of_neg (by simpa using hpx)]
          exact hrec

/-- The re-entrancy caveat scenario for the burst hook-ordering property:
the root controller 0 subscribes controllers 2 and 3, controller 3 has a
plain reactor (reactor 0), and controller 1 — triggered re-entrantly by
reactor 0 — also subscribes controller 2. -/
def envScenC2R : Nat → List RNode
  | 0 => [.ctrl 2, .ctrl 3]
  | 1 => [.ctrl 2]
  | 3 => [.reactor 0]
  | _ => []

/-- Reactor 0 re-entrantly triggers controller 1 with the EXTERNAL origin. -/
def actScenC2R : Act := fun r => if r = 0 then [(1, Origin.external)] else []

/-- Hook ordering is not topological across a re-entrant extension of a
burst: controller 2 is directly downstream of controller 1 and both are
invoked in the burst, yet controller 2's hook is first invoked before
controller 1's, because controller 2 had already drained as part of the
root's subgraph when the re-entrant trigger re-added it below controller
1.  This is why the burst hook-ordering property is stated for bursts of
pure reactors only. -/
theorem reentrant_burst_breaks_hook_order :
    Downstream envScenC2R 1 2 ∧
    triggerTop envScenC2R actScenC2R 0 .external 40 =
      .ok [RNode.hook 0, RNode.hook 2, RNode.hook 3, RNode.reactor 0,
           RNode.hook 1, RNode.hook 2] ∧
    List.indexOf (RNode.hook 2) [RNode.hook 0, RNode.hook 2, RNode.hook 3,
        RNode.reactor 0, RNode.hook 1, RNode.hook 2] <
      List.indexOf (RNode.hook 1) [RNode.hook 0, RNode.hook 2, RNode.hook 3,
        RNode.reactor 0, RNode.hook 1, RNode.hook 2] := by
  exact ⟨Downstream.direct (by simp [envScenC2R]), rfl, by decide⟩

/-- C2 amended: in a burst of pure reactors — reactors that perform no
re-entrant trigger calls — started externally at `c0`, for any controller
`a` reachable in the burst (the root itself or transitively downstream of
it) and any controller `b` transitively downstream of `a`, `a`'s
on-trigger hook is invoked strictly before `b`'s on-trigger hook and
strictly before each of `b`'s plain reactors.  A's own reactors are not in
general earlier than `b`'s hook — see the counterexample — so the claim
holds for hooks and for the downstream controller's reactors only.  When a
re-entrant trigger extends the burst, even the hook ordering can fail,
because an already-drained downstream controller is re-added below the
re-entrant root (see reentrant_burst_breaks_hook_order); hence the
restriction to pure reactors. -/
theorem c2_hook_topological_order (env : Nat → List RNode) (act : Act) (c0 : Nat)
    (fuel : Nat) (log : List RNode) (a b : Nat)
    (hpure : ∀ r, act r = [])
    (hrun : triggerTop env act c0 .external fuel = .ok log)
    (hreach : a = c0 ∨ Downstream env c0 a)
    (hdown : Downstream env a b) :
    RNode.hook a ∈ log ∧ RNode.hook b ∈ log ∧
    log.indexOf (RNode.hook a) < log.indexOf (RNode.hook b) ∧
    ∀ r, RNode.reactor r ∈ env b →
      RNode.reactor r ∈ log ∧ log.indexOf (RNode.hook a) < log.indexOf (RNode.reactor r) := by
  obtain ⟨es, ord, hesolve, hso, hlog⟩ := triggerTop_pure env act c0 .external fuel log hpure hrun
  obtain ⟨f1, rest0, _, hrest0, hes⟩ := resolveEdges_ctrl_shape hesolve
  have hrest0sub : rest0 ⊆ es := by
    rw [hes]
    intro x hx
    exact List.mem_cons_of_mem _ (List.mem_append_right _ hx)
  have hachunk : ∃ fa esa,
      resolveListF (fun n => resolveEdges env fa (RNode.hook a) n Origin.external) (env a) = some esa ∧
      esa ⊆ es := by
    rcases hreach with rfl | hd0
    · exact ⟨f1, rest0, hrest0, hrest0sub⟩
    · obtain ⟨_, hchunk⟩ := downstream_path hd0 hrest0 hrest0sub
      exact hchunk
  obtain ⟨fa, esa, hachunkEq, hasub⟩ := hachunk
  obtain ⟨hpathAB, fb, esb, hbchunkEq, hbsub⟩ := downstream_path hdown hachunkEq hasub
  obtain ⟨hamem, hbmem, hablt⟩ := esPath_lt hso hpathAB
  obtain ⟨hnd, _, _⟩ := staticOrder_ok _ ord hso
  have hfa : RNode.hook a ∈ log := by
    rw [hlog]
    exact List.mem_filter.mpr ⟨hamem, rfl⟩
  have hfb : RNode.hook b ∈ log := by
    rw [hlog]
    exact List.mem_filter.mpr ⟨hbmem, rfl⟩
  refine ⟨hfa, hfb, ?_, ?_⟩
  · rw [hlog]
    exact filter_indexOf_mono hnd nonCtrl hamem hbmem rfl rfl hablt
  · intro r hr
    obtain ⟨esr, hesr, hsubr⟩ := resolveListF_mem hbchunkEq (RNode.reactor r) hr
    have hedge : (some (RNode.hook b), RNode.reactor r) ∈ es :=
      hbsub (hsubr (resolveEdges_head hesr))
    obtain ⟨_, hrmem, hbrlt⟩ := esEdge_mem_ord hso hedge
    refine ⟨by rw [hlog]; exact List.mem_filter.mpr ⟨hrmem, rfl⟩, ?_⟩
    rw [hlog]
    exact filter_indexOf_mono hnd nonCtrl hamem hrmem rfl rfl (hablt.trans hbrlt)

theorem c2_hook_topological_order_witness :
    actNil 7 = [] ∧
    Downstream envScenC1 0 2 ∧
    triggerTop envScenC1 actNil 0 .external 40 =
      .ok [RNode.hook 0, RNode.hook 1, RNode.hook 2, RNode.reactor 0] ∧
    RNode.hook 0 ∈ [RNode.hook 0, RNode.hook 1, RNode.hook 2, RNode.reactor 0] ∧
    RNode.hook 2 ∈ [RNode.hook 0, RNode.hook 1, RNode.hook 2, RNode.reactor 0] ∧
    List.indexOf (RNode.hook 0) [RNode.hook 0, RNode.hook 1, RNode.hook 2, RNode.reactor 0] <
      List.indexOf (RNode.hook 2) [RNode.hook 0, RNode.hook 1, RNode.hook 2, RNode.reactor 0] ∧
    RNode.reactor 0 ∈ [RNode.hook 0, RNode.hook 1, RNode.hook 2, RNode.reactor 0] ∧
    List.indexOf (RNode.hook 0) [RNode.hook 0, RNode.hook 1, RNode.hook 2, RNode.reactor 0] <
      List.indexOf (RNode.reactor 0) [RNode.hook 0, RNode.hook 1, RNode.hook 2, RNode.reactor 0] := by
  have h01 : RNode.ctrl 1 ∈ envScenC1 0 := by simp [envScenC1]
  have h12 : RNode.ctrl 2 ∈ envScenC1 1 := by simp [envScenC1]
  have hdown : Downstream envScenC1 0 2 := Downstream.step h01 (Downstream.direct h12)
  have hr2 : RNode.reactor 0 ∈ envScenC1 2 := by simp [envScenC1]
  have h := c2_hook_topological_order envScenC1 actNil 0 40
    [RNode.hook 0, RNode.hook 1, RNode.hook 2, RNode.reactor 0] 0 2
    (fun _ => rfl) rfl (Or.inl rfl) hdown
  exact ⟨rfl, hdown, rfl, h.1, h.2.1, h.2.2.1,
    (h.2.2.2 0 hr2).1, (h.2.2.2 0 hr2).2⟩

theorem resolveListF_mem_rev {f : RNode → Option (List REdge)} :
    ∀ {l : List RNode} {r : List REdge}, resolveListF f l = some r →
      ∀ e ∈ r, ∃ n ∈ l, ∃ rn, f n = some rn ∧ e ∈ rn ∧ rn ⊆ r := by
  intro l
  induction l with
  | nil =>
    intro r h e he
    have : r = [] := (Option.some.inj h).symm
    subst this
    exact absurd he (List.not_mem_nil e)
  | cons m ms ih =>
    intro r h e he
    have hshape : resolveListF f (m :: ms) =
        (match f m, resolveListF f ms with
          | some x, some y => some (x ++ y)
          | _, _ => none) := rfl
    rw [hshape] at h
    cases hfm : f m with
    | none => rw [hfm] at h; exact absurd h (by simp)
    | some x =>
      cases hrest : resolveListF f ms with
      | none => rw [hfm, hrest] at h; exact absurd h (by simp)
      | some y =>
        rw [hfm, hrest] at h
        have hr : r = x ++ y := (Option.some.inj h).symm
        subst hr
        rcases List.mem_append.mp he with he2 | he2
        · exact ⟨m, List.mem_cons_self m ms, x, hfm, he2, List.subset_append_left x y⟩
        · obtain ⟨n, hn, rn, hrn, hern, hsub⟩ := ih hrest e he2
          exact ⟨n, List.mem_cons_of_mem m hn, rn, hrn, hern,
            hsub.trans (List.subset_append_right x y)⟩

/-- A node is mentioned by an edge map entry: as a key or inside a source
list. -/
def mentionsG (g : Graph) (x : RNode) : Prop := ∃ e ∈ g, x = e.1 ∨ x ∈ e.2

theorem graphAdd_mention {g : Graph} {s t x : RNode} (h : mentionsG (graphAdd g s t) x) :
    mentionsG g x ∨ x = t ∨ x = s := by
  induction g with
  | nil =>
    obtain ⟨e, he, hx⟩ := h
    rw [show graphAdd [] s t = [(t, [s])] from rfl, List.mem_singleton] at he
    subst he
    rcases hx with hx | hx
    · exact Or.inr (Or.inl hx)
    · exact Or.inr (Or.inr (List.mem_singleton.mp hx))
  | cons e0 rest ih =>
    obtain ⟨e, he, hx⟩ := h
    by_cases he0 : e0.1 = t
    · rw [show graphAdd (e0 :: rest) s t = (e0.1, e0.2 ++ [s]) :: rest from by
        simp [graphAdd, he0]] at he
      rcases List.mem_cons.mp he with rfl | he2
      · rcases hx with hx | hx
        · exact Or.inr (Or.inl (by rw [hx, he0]))
        · rcases List.mem_append.mp hx with hx2 | hx2
          · exact Or.inl ⟨e0, List.mem_cons_self e0 rest, Or.inr hx2⟩
          · exact Or.inr (Or.inr (List.mem_singleton.mp hx2))
      · exact Or.inl ⟨e, List.mem_cons_of_mem e0 he2, hx⟩
    · rw [show graphAdd (e0 :: rest) s t = e0 :: graphAdd rest s t from by
        simp [graphAdd, he0]] at he
      rcases List.mem_cons.mp he with rfl | he2
      · exact Or.inl ⟨e, List.mem_cons_self e rest, hx⟩
      · rcases ih ⟨e, he2, hx⟩ with h2 | h2
        · obtain ⟨e2, he3, hx2⟩ := h2
          exact Or.inl ⟨e2, List.mem_cons_of_mem e0 he3, hx2⟩
        · exact Or.inr h2

theorem graphMerge_mention (es : List REdge) :
    ∀ (g0 : Graph) (x : RNode), mentionsG (graphMerge g0 es) x →
      mentionsG g0 x ∨ (∃ s, (s, x) ∈ es) ∨ (∃ t, (some x, t) ∈ es) := by
  induction es with
  | nil => intro g0 x h; exact Or.inl h
  | cons e rest ih =>
    intro g0 x h
    have hstep : graphMerge g0 (e :: rest) =
        graphMerge (match e.1 with | none => g0 | some s' => graphAdd g0 s' e.2) rest := rfl
    rw [hstep] at h
    rcases ih _ x h with h2 | h2 | h2
    · cases hsrc : e.1 with
      | none =>
        rw [hsrc] at h2
        exact Or.inl h2
      | some s' =>
        rw [hsrc] at h2
        rcases graphAdd_mention h2 with h3 | h3 | h3
        · exact Or.inl h3
        · refine Or.inr (Or.inl ⟨e.1, ?_⟩)
          have hpair : (e.1, x) = e := by
            rw [h3]
          rw [hpair]
          exact List.mem_cons_self e rest
        · refine Or.inr (Or.inr ⟨e.2, ?_⟩)
          have hpair : (some x, e.2) = e := by
            rw [h3, ← hsrc]
          rw [hpair]
          exact List.mem_cons_self e rest
    · obtain ⟨s, hs⟩ := h2
      exact Or.inr (Or.inl ⟨s, List.mem_cons_of_mem e hs⟩)
    · obtain ⟨t, ht⟩ := h2
      exact Or.inr (Or.inr ⟨t, List.mem_cons_of_mem e ht⟩)

theorem hook_edge_downstream (env : Nat → List RNode)
    (hwf : ∀ c n, n ∈ env c → (∃ r, n = RNode.reactor r) ∨ (∃ d, n = RNode.ctrl d)) :
    ∀ (fuel : Nat) (src : Option RNode) (c : Nat) (o : Origin) (es : List REdge) (a : Nat),
      resolveEdges env fuel src (RNode.ctrl c) o = some es →
      (some (RNode.ctrl a), RNode.hook a) ∈ es →
      (a = c ∧ o = .external) ∨ Downstream env c a := by
  intro fuel
  induction fuel using Nat.strong_induction_on with
  | _ fuel ih =>
    intro src c o es a hres hedge
    obtain ⟨f, rest, hfe, hrest, hes⟩ := resolveEdges_ctrl_shape hres
    have hflt : f < fuel := by omega
    rw [hes] at hedge
    rcases List.mem_cons.mp hedge with heq | hedge2
    · exact absurd (congrArg Prod.snd heq) (by simp)
    · rcases List.mem_append.mp hedge2 with hpre | hrest2
      · cases o with
        | external =>
          have : (some (RNode.ctrl a), RNode.hook a) = (some (RNode.ctrl c), RNode.hook c) := by
            simpa [hookSource] using hpre
          have ha : a = c := by
            have := congrArg Prod.snd this
            simpa using this
          exact Or.inl ⟨ha, rfl⟩
        | internal => simp [hookSource] at hpre
      · obtain ⟨n, hn, rn, hrn, hern, _⟩ := resolveListF_mem_rev hrest _ hrest2
        rcases hwf c n hn with ⟨r, rfl⟩ | ⟨d, rfl⟩
        · cases hf : f with
          | zero => rw [hf] at hrn; exact absurd hrn (by simp [resolveEdges])
          | succ f2 =>
            rw [hf] at hrn
            have : rn = [(some (hookSource c o).2, RNode.reactor r)] := (Option.some.inj hrn).symm
            rw [this, List.mem_singleton] at hern
            exact absurd (congrArg Prod.snd hern) (by simp)
        · rcases ih f hflt _ d .external rn a hrn hern with ⟨rfl, _⟩ | hdown
          · exact Or.inr (Downstream.direct hn)
          · exact Or.inr (Downstream.step hn hdown)

theorem mention_hook (env : Nat → List RNode)
    (hwf : ∀ c n, n ∈ env c → (∃ r, n = RNode.reactor r) ∨ (∃ d, n = RNode.ctrl d)) :
    ∀ (fuel : Nat) (src : Option RNode) (c : Nat) (o : Origin) (es : List REdge) (a : Nat),
      resolveEdges env fuel src (RNode.ctrl c) o = some es →
      ((∃ s, (s, RNode.hook a) ∈ es) ∨ (∃ t, (some (RNode.hook a), t) ∈ es)) →
      (some (RNode.ctrl a), RNode.hook a) ∈ es ∨ src = some (RNode.hook a) := by
  intro fuel
  induction fuel using Nat.strong_induction_on with
  | _ fuel ih =>
    intro src c o es a hres hmention
    obtain ⟨f, rest, hfe, hrest, hes⟩ := resolveEdges_ctrl_shape hres
    have hflt : f < fuel := by omega
    have hrestsub : rest ⊆ es := by
      rw [hes]
      intro x hx
      exact List.mem_cons_of_mem _ (List.mem_append_right _ hx)
    have hooklft : o = Origin.external → a = c → (some (RNode.ctrl a), RNode.hook a) ∈ es := by
      rintro rfl rfl
      rw [hes]
      exact List.mem_cons_of_mem _ (List.mem_append_left _ (by simp [hookSource]))
    have hcase : ∀ n ∈ env c, ∀ rn, resolveEdges env f (hookSource c o).2 n Origin.external = some rn →
        rn ⊆ rest →
        (((∃ s, (s, RNode.hook a) ∈ rn) ∨ (∃ t, (some (RNode.hook a), t) ∈ rn)) →
          (some (RNode.ctrl a), RNode.hook a) ∈ es) := by
      intro n hn rn hrn hsub hmen
      rcases hwf c n hn with ⟨r, rfl⟩ | ⟨d, rfl⟩
      · cases hf : f with
        | zero => rw [hf] at hrn; exact absurd hrn (by simp [resolveEdges])
        | succ f2 =>
          rw [hf] at hrn
          have hrneq : rn = [(some (hookSource c o).2, RNode.reactor r)] := (Option.some.inj hrn).symm
          rcases hmen with ⟨s0, hs0⟩ | ⟨t0, ht0⟩
          · rw [hrneq, List.mem_singleton] at hs0
            exact absurd (congrArg Prod.snd hs0) (by simp)
          · rw [hrneq, List.mem_singleton] at ht0
            have hfst := congrArg Prod.fst ht0
            cases o with
            | external =>
              have : RNode.hook a = RNode.hook c := by
                simpa [hookSource] using hfst
              exact hooklft rfl (by simpa using this)
            | internal =>
              exact absurd hfst (by simp [hookSource])
      · rcases ih f hflt _ d .external rn a hrn hmen with hl | hr
        · exact hrestsub (hsub hl)
        · cases o with
          | external =>
            have hca : c = a := by
              simpa [hookSource] using hr
            exact hooklft rfl hca.symm
          | internal =>
            exact absurd hr (by simp [hookSource])
    rcases hmention with ⟨s0, hs0⟩ | ⟨t0, ht0⟩
    · rw [hes] at hs0
      rcases List.mem_cons.mp hs0 with heq | hs2
      · exact absurd (congrArg Prod.snd heq) (by simp)
      · rcases List.mem_append.mp hs2 with hpre | hrest2
        · cases o with
          | external =>
            have heq2 : (s0, RNode.hook a) = (some (RNode.ctrl c), RNode.hook c) := by
              simpa [hookSource] using hpre
            have ha : a = c := by
              have := congrArg Prod.snd heq2
              simpa using this
            exact Or.inl (hooklft rfl ha)
          | internal => simp [hookSource] at hpre
        · obtain ⟨n, hn, rn, hrn, hern, hsub⟩ := resolveListF_mem_rev hrest _ hrest2
          exact Or.inl (hcase n hn rn hrn hsub (Or.inl ⟨s0, hern⟩))
    · rw [hes] at ht0
      rcases List.mem_cons.mp ht0 with heq | ht2
      · exact Or.inr (congrArg Prod.fst heq).symm
      · rcases List.mem_append.mp ht2 with hpre | hrest2
        · cases o with
          | external =>
            have heq2 : (some (RNode.hook a), t0) = (some (RNode.ctrl c), RNode.hook c) := by
              simpa [hookSource] using hpre
            exact absurd (congrArg Prod.fst heq2) (by simp)
          | internal => simp [hookSource] at hpre
        · obtain ⟨n, hn, rn, hrn, hern, hsub⟩ := resolveListF_mem_rev hrest _ hrest2
          exact Or.inl (hcase n hn rn hrn hsub (Or.inr ⟨t0, hern⟩))

/-- C10: a trigger fired with the INTERNAL origin skips only the triggering
controller's own on-trigger hook. In a burst with no re-entrant triggers,
over a well-formed subscription environment (every subscription entry is a
plain reactor or a controller) in which the root is not downstream of
itself, the invocation log omits the root's hook, yet still contains every
plain reactor of the root and the on-trigger hook of every controller
directly or transitively subscribed downstream of the root: those are all
expanded with the EXTERNAL default. -/
theorem c10_internal_skips_only_own_hook
    (env : Nat → List RNode) (act : Act) (root fuel : Nat) (log : List RNode)
    (hwf : ∀ c n, n ∈ env c → (∃ r, n = RNode.reactor r) ∨ (∃ d, n = RNode.ctrl d))
    (hpure : ∀ r, act r = [])
    (hnoself : ¬ Downstream env root root)
    (hrun : triggerTop env act root Origin.internal fuel = Except.ok log) :
    RNode.hook root ∉ log ∧
    (∀ r, RNode.reactor r ∈ env root → RNode.reactor r ∈ log) ∧
    (∀ b, Downstream env root b → RNode.hook b ∈ log) := by
  obtain ⟨es, ord, hres, hso, hlog⟩ :=
    triggerTop_pure env act root Origin.internal fuel log hpure hrun
  obtain ⟨f, rest, hfe, hrest, hes⟩ := resolveEdges_ctrl_shape hres
  have hrestsub : rest ⊆ es := by
    rw [hes]
    intro x hx
    exact List.mem_cons_of_mem _ (List.mem_append_right _ hx)
  refine ⟨?_, ?_, ?_⟩
  · intro hmemlog
    rw [hlog] at hmemlog
    have hmemord : RNode.hook root ∈ ord := List.mem_of_mem_filter hmemlog
    have hmention : mentionsG (graphMerge [] es) (RNode.hook root) :=
      (buildTS_order_mem _ _).mp
        (((staticOrder_ok _ ord hso).2.1 (RNode.hook root)).mp hmemord)
    rcases graphMerge_mention es [] _ hmention with h0 | hm
    · simp [mentionsG] at h0
    · rcases mention_hook env hwf fuel none root Origin.internal es root hres hm with
        hedge | habs
      · rcases hook_edge_downstream env hwf fuel none root Origin.internal es root
          hres hedge with ⟨_, hoe⟩ | hdown
        · exact Origin.noConfusion hoe
        · exact hnoself hdown
      · exact absurd habs (by simp)
  · intro r hr
    obtain ⟨rn, hrn, hsubrn⟩ := resolveListF_mem hrest (RNode.reactor r) hr
    have hedge : (some (RNode.ctrl root), RNode.reactor r) ∈ es :=
      hrestsub (hsubrn (resolveEdges_head hrn))
    obtain ⟨_, hmemord, _⟩ := esEdge_mem_ord hso hedge
    rw [hlog]
    exact List.mem_filter.mpr ⟨hmemord, rfl⟩
  · intro b hd
    obtain ⟨hpath, _⟩ := downstream_path hd hrest hrestsub
    obtain ⟨_, hmemord, _⟩ := esPath_lt hso hpath
    rw [hlog]
    exact List.mem_filter.mpr ⟨hmemord, rfl⟩

/-- A two-controller scenario for the INTERNAL origin: controller 0 has a
plain reactor (reactor 0) and subscribes controller 1, which has a plain
reactor (reactor 1). -/
def envScenC10 : Nat → List RNode := fun c =>
  if c = 0 then [RNode.reactor 0, RNode.ctrl 1]
  else if c = 1 then [RNode.reactor 1] else []

/-- Witness for C10 on the concrete two-controller scenario: the burst
triggered internally at controller 0 drains to `[reactor 0, hook 1,
reactor 1]`, which omits controller 0's own hook but contains its plain
reactor and the downstream controller's hook. -/
theorem c10_internal_skips_only_own_hook_witness :
    RNode.hook 0 ∉ [RNode.reactor 0, RNode.hook 1, RNode.reactor 1] ∧
    RNode.reactor 0 ∈ [RNode.reactor 0, RNode.hook 1, RNode.reactor 1] ∧
    RNode.hook 1 ∈ [RNode.reactor 0, RNode.hook 1, RNode.reactor 1] := by
  have hwf : ∀ c n, n ∈ envScenC10 c →
      (∃ r, n = RNode.reactor r) ∨ (∃ d, n = RNode.ctrl d) := by
    intro c n hn
    by_cases h0 : c = 0
    · subst h0
      have hn2 : n = RNode.reactor 0 ∨ n = RNode.ctrl 1 := by
        simpa [envScenC10] using hn
      rcases hn2 with rfl | rfl
      · exact Or.inl ⟨0, rfl⟩
      · exact Or.inr ⟨1, rfl⟩
    · by_cases h1 : c = 1
      · subst h1
        have hn2 : n = RNode.reactor 1 := by
          simpa [envScenC10] using hn
        subst hn2
        exact Or.inl ⟨1, rfl⟩
      · simp [envScenC10, h0, h1] at hn
  have hsub1 : ∀ z, ¬ Downstream envScenC10 1 z := by
    intro z hz
    cases hz with
    | direct hb => simp [envScenC10] at hb
    | step hb _ => simp [envScenC10] at hb
  have hnoself : ¬ Downstream envScenC10 0 0 := by
    intro hz
    cases hz with
    | direct hb => simp [envScenC10] at hb
    | step hb hd =>
      rename_i b
      have hb1 : b = 1 := by simpa [envScenC10] using hb
      subst hb1
      exact hsub1 0 hd
  have h := c10_internal_skips_only_own_hook envScenC10 actNil 0 10
    [RNode.reactor 0, RNode.hook 1, RNode.reactor 1]
    hwf (fun _ => rfl) hnoself rfl
  exact ⟨h.1, h.2.1 0 (by simp [envScenC10]),
    h.2.2 1 (Downstream.direct (by simp [envScenC10]))⟩
